import Mathlib

/-!
Verification of the `live-face-detection` video-analysis script (`src/main.py`).

Text is modelled as `List Char`.  Python regular-expression behaviour is
embedded for the concrete patterns the script uses; `\s` and `\d` are
modelled over ASCII (the script's markers and timestamps are ASCII digits
and ordinary whitespace), and `re.IGNORECASE` is modelled by ASCII
lowercasing.  Fallible Python code (calls of `int` that may raise
`ValueError`, tuple unpacking that may fail) is modelled with `Option`,
and the I/O pipeline with `Except` over an abstract environment.
-/

namespace LiveFace

/-! ## Definitions: shallow embedding of src/main.py and
specification-side predicates from the claims -/

/-- Characters matched by Python's `\s` (ASCII range). -/
def isPySpace (c : Char) : Bool :=
  c = ' ' || c = '\t' || c = '\n' || c = '\r' || c = '\x0b' || c = '\x0c'

/-- Numeric value of a list of decimal digit characters (Python `int` on a
digit string). -/
def natOfDigits (l : List Char) : Nat :=
  l.foldl (fun n c => n * 10 + (c.toNat - '0'.toNat)) 0

/-- ASCII lowercasing of a character list, modelling `re.IGNORECASE`. -/
def lowerList (l : List Char) : List Char :=
  l.map Char.toLower

/-- Case-insensitive "starts with": does `l` begin with (a case variant of)
`pat`? -/
def startsWithCI : List Char → List Char → Bool
  | [], _ => true
  | _ :: _, [] => false
  | p :: ps, c :: cs => (p.toLower = c.toLower) && startsWithCI ps cs

/-- Skip the maximal leading run of whitespace (the effect of a greedy `\s*`
followed by a non-whitespace literal). -/
def dropPySpaces (l : List Char) : List Char :=
  l.dropWhile isPySpace

/-- Python `str.split(sep)` for a single-character separator, Python semantics
(keeps empty fields). -/
def splitOnChar (sep : Char) : List Char → List (List Char)
  | [] => [[]]
  | c :: cs =>
    match splitOnChar sep cs with
    | [] => if c = sep then [[], []] else [[c]]
    | g :: gs => if c = sep then [] :: g :: gs else (c :: g) :: gs

/-- Python `int(str)`: optional surrounding whitespace, optional sign, a
nonempty run of decimal digits; `none` models a raised `ValueError`.
(Digit-group underscores and non-ASCII digits are not modelled.) -/
def pyIntOfChars (l : List Char) : Option Int :=
  let t := ((l.dropWhile isPySpace).reverse.dropWhile isPySpace).reverse
  match t with
  | '-' :: ds =>
      if ds ≠ [] ∧ ds.all Char.isDigit then some (-(natOfDigits ds : Int)) else none
  | '+' :: ds =>
      if ds ≠ [] ∧ ds.all Char.isDigit then some (natOfDigits ds : Int) else none
  | ds =>
      if ds ≠ [] ∧ ds.all Char.isDigit then some (natOfDigits ds : Int) else none

/-- Decimal digit characters of a natural number. -/
def natDigits (n : Nat) : List Char :=
  Nat.toDigits 10 n

/-- Decimal rendering of an integer (Python `str` on an `int`). -/
def intDigits (n : Int) : List Char :=
  if n < 0 then '-' :: natDigits n.natAbs else natDigits n.natAbs

/-- Python `int()` applied to a real value: truncation toward zero. -/
def pyTrunc (q : ℚ) : Int :=
  if 0 ≤ q then ⌊q⌋ else -⌊-q⌋

/-- The optional group `(?::\d{2})?` (greedy): consumed characters and the
remainder. -/
def matchOptColonDigits : List Char → List Char × List Char
  | ':' :: d1 :: d2 :: rest =>
      if d1.isDigit && d2.isDigit then ([':', d1, d2], rest)
      else ([], ':' :: d1 :: d2 :: rest)
  | l => ([], l)

/-- The optional group `(?:\.\d{1,2})?` (greedy, preferring two digits). -/
def matchOptFrac : List Char → List Char × List Char
  | '.' :: d1 :: d2 :: rest =>
      if d1.isDigit then
        if d2.isDigit then (['.', d1, d2], rest) else (['.', d1], d2 :: rest)
      else ([], '.' :: d1 :: d2 :: rest)
  | '.' :: d1 :: rest =>
      if d1.isDigit then (['.', d1], rest) else ([], '.' :: d1 :: rest)
  | l => ([], l)

/-- The part of the pattern after the first `:` — `\d{2}` then the two
optional groups. -/
def matchTail : List Char → Option (List Char × List Char)
  | d1 :: d2 :: rest =>
      if d1.isDigit && d2.isDigit then
        let p1 := matchOptColonDigits rest
        let p2 := matchOptFrac p1.2
        some (d1 :: d2 :: (p1.1 ++ p2.1), p2.2)
      else none
  | _ => none

/-- Match the full timestamp pattern at the head of the list, returning the
matched characters and the remainder.  `\d{1,2}` tries two digits first and
backtracks to one. -/
def matchTimestampAt : List Char → Option (List Char × List Char)
  | a :: b :: c :: rest =>
      if a.isDigit && b.isDigit && c = ':' then
        (matchTail rest).map (fun p => (a :: b :: c :: p.1, p.2))
      else if a.isDigit && b = ':' then
        (matchTail (c :: rest)).map (fun p => (a :: b :: p.1, p.2))
      else none
  | _ => none

/-- Fuelled scanning loop for `re.findall`; a successful match consumes at
least one character, so fuel `l.length` always suffices. -/
def findAllAux : Nat → List Char → List (List Char)
  | 0, _ => []
  | _ + 1, [] => []
  | fuel + 1, c :: cs =>
    match matchTimestampAt (c :: cs) with
    | some p => p.1 :: findAllAux fuel p.2
    | none => findAllAux fuel cs

/-- Embedding of `re.findall` of the timestamp pattern: scan left to right, taking
non-overlapping matches in order of occurrence. -/
def findAllTimestamps (l : List Char) : List (List Char) :=
  findAllAux l.length l

/-- The lazy group `(.*?)` up to the first `]`: succeeds if a `]` occurs
before any newline (`.` does not match `\n`), returning the characters
before that first `]`. -/
def takeUntilRBracket : List Char → Option (List Char)
  | [] => none
  | c :: cs =>
    if c = ']' then some []
    else if c = '\n' then none
    else (takeUntilRBracket cs).map (c :: ·)

/-- Try to match `marker` + `\s*` + `[` + lazy group + `]` at the head of
`l`, returning the group on success. -/
def matchMarkerAt (marker l : List Char) : Option (List Char) :=
  if startsWithCI marker l then
    match dropPySpaces (l.drop marker.length) with
    | '[' :: rest => takeUntilRBracket rest
    | _ => none
  else none

/-- Embedding of `re.search` of the marker pattern: find the leftmost position where the
pattern matches and return the bracketed group. -/
def searchMarker (marker : List Char) : List Char → Option (List Char)
  | [] => matchMarkerAt marker []
  | c :: cs =>
    match matchMarkerAt marker (c :: cs) with
    | some g => some g
    | none => searchMarker marker cs

def zhTimestampMarker : List Char := "证据时间戳:".toList

def enTimestampMarker : List Char := "EVIDENCE_TIMESTAMPS:".toList

/-- The bracketed list picked by the extraction loop: the Chinese pattern is
tried first, the English one only if the Chinese pattern matched nowhere. -/
def evidenceGroup (text : List Char) : Option (List Char) :=
  match searchMarker zhTimestampMarker text with
  | some g => some g
  | none => searchMarker enTimestampMarker text

/-- The `timestamps` field computed by
`_extract_analysis_data_from_response`. -/
def extractTimestamps (text : List Char) : List (List Char) :=
  match evidenceGroup text with
  | some g => findAllTimestamps g
  | none => []

/-- Try to match `marker` + `\s*` + `(\d+)` + `/10` at the head of `l`,
returning the numeric value of the digit group. -/
def matchScoreAt (marker l : List Char) : Option Nat :=
  if startsWithCI marker l then
    let r := dropPySpaces (l.drop marker.length)
    let ds := r.takeWhile Char.isDigit
    if ds = [] then none
    else
      match r.drop ds.length with
      | '/' :: '1' :: '0' :: _ => some (natOfDigits ds)
      | _ => none
  else none

/-- Embedding of `re.search` of the score pattern: leftmost match wins. -/
def searchScore (marker : List Char) : List Char → Option Nat
  | [] => matchScoreAt marker []
  | c :: cs =>
    match matchScoreAt marker (c :: cs) with
    | some n => some n
    | none => searchScore marker cs

def zhLivenessMarker : List Char := "活体检测评分:".toList

def enLivenessMarker : List Char := "LIVENESS_SCORE:".toList

def zhBiometricMarker : List Char := "生物特征评分:".toList

def enBiometricMarker : List Char := "BIOMETRIC_SCORE:".toList

def zhSpoofingMarker : List Char := "伪造风险评分:".toList

/-- Try a list of score patterns in order, keeping the first that matches
anywhere (the `for pattern ... break` loop). -/
def firstScore (markers : List (List Char)) (text : List Char) : Option Nat :=
  match markers with
  | [] => none
  | m :: ms =>
    match searchScore m text with
    | some n => some n
    | none => firstScore ms text

/-- Result shape of `_extract_analysis_data_from_response`: a dict with
exactly these four keys. -/
structure AnalysisData where
  timestamps : List (List Char)
  liveness_score : Option Nat
  biometric_score : Option Nat
  spoofing_risk_score : Option Nat
deriving DecidableEq, Repr

/-- Embedding of `_extract_analysis_data_from_response` (src/main.py:371-422). -/
def extractAnalysisData (text : List Char) : AnalysisData :=
  { timestamps := extractTimestamps text
    liveness_score := firstScore [zhLivenessMarker, enLivenessMarker] text
    biometric_score := firstScore [zhBiometricMarker, enBiometricMarker] text
    spoofing_risk_score := searchScore zhSpoofingMarker text }

/-- Python `f"{n:02d}"`: decimal rendering zero-padded to width 2. -/
def format02 (n : Int) : List Char :=
  if 0 ≤ n ∧ n < 10 then '0' :: natDigits n.natAbs else intDigits n

/-- Parse the colon-separated time part shared by both converters:
`MM:SS` or `HH:MM:SS`; any other number of fields yields 0 without parsing;
`none` models a `ValueError` from `int`. -/
def timePartSeconds (time_part : List Char) : Option Int :=
  match splitOnChar ':' time_part with
  | [m, s] =>
      (pyIntOfChars m).bind fun mv =>
        (pyIntOfChars s).map fun sv => mv * 60 + sv
  | [h, m, s] =>
      (pyIntOfChars h).bind fun hv =>
        (pyIntOfChars m).bind fun mv =>
          (pyIntOfChars s).map fun sv => hv * 3600 + mv * 60 + sv
  | _ => some 0

/-- The dict returned by `_convert_timestamp_to_frame_info`. -/
structure FrameInfo where
  total_seconds : Int
  frame_offset : Int
  exact_frame : Int
  timestamp_with_frame : List Char
deriving DecidableEq, Repr

/-- Embedding of `_convert_timestamp_to_frame_info` (src/main.py:424-454).  `fps` is the
float from OpenCV, idealised as a rational; `none` models a raised
exception (an unparsable fragment, or more than one `.`, which makes the
two-target unpacking of `split('.')` fail). -/
def convertTimestampToFrameInfo (timestamp : List Char) (fps : ℚ) :
    Option FrameInfo :=
  match splitOnChar '.' timestamp with
  | [tp] =>
      (timePartSeconds tp).map fun ts =>
        { total_seconds := ts, frame_offset := 0,
          exact_frame := pyTrunc ((ts : ℚ) * fps),
          timestamp_with_frame := tp ++ '.' :: format02 0 }
  | [tp, fp] =>
      (pyIntOfChars fp).bind fun fo =>
        (timePartSeconds tp).map fun ts =>
          { total_seconds := ts, frame_offset := fo,
            exact_frame := pyTrunc ((ts : ℚ) * fps) + fo,
            timestamp_with_frame := tp ++ '.' :: format02 fo }
  | _ => none

/-- Embedding of `_convert_timestamp_to_seconds` (src/main.py:456-471): the legacy
converter, which discards anything after a `.`. -/
def convertTimestampToSeconds (timestamp : List Char) : Option Int :=
  match splitOnChar '.' timestamp with
  | [tp] => timePartSeconds tp
  | [tp, _] => timePartSeconds tp
  | _ => none

/-- Abstraction of an OpenCV capture: whether it opened, its reported FPS
and frame count, and which frame positions yield a successful `read`. -/
structure Video where
  openedOk : Bool
  fps : ℚ
  total_frames : Int
  readOk : Int → Bool

/-- The frame index passed to `cap.set(cv2.CAP_PROP_POS_FRAMES, ·)` for one
timestamp: the computed exact frame, clamped to `total_frames - 1` when it
is at or beyond `total_frames`. -/
def seekIndex (v : Video) (t : List Char) : Option Int :=
  (convertTimestampToFrameInfo t v.fps).map fun fi =>
    if v.total_frames ≤ fi.exact_frame then v.total_frames - 1
    else fi.exact_frame

/-- Python `timestamp.replace(':', '-').replace('.', '_')`. -/
def sanitizeTimestamp (t : List Char) : List Char :=
  t.map fun c => if c = ':' then '-' else if c = '.' then '_' else c

/-- The screenshot file name `evidence_{i+1}_{safe_timestamp}_frame{n}.jpg`. -/
def evidenceFileName (i : Nat) (t : List Char) (frame : Int) : List Char :=
  "evidence_".toList ++ natDigits (i + 1) ++ '_' :: sanitizeTimestamp t
    ++ "_frame".toList ++ intDigits frame ++ ".jpg".toList

/-- Model of `os.path.join` for a relative directory without a trailing slash. -/
def pathJoin (dir file : List Char) : List Char :=
  dir ++ '/' :: file

/-- The extraction loop of `_extract_video_frames`, with `i` the enumeration
index: a timestamp whose conversion raises aborts the whole call (`none`); a
failed `read` skips the timestamp; a successful one appends the file path. -/
def extractVideoFramesAux (v : Video) (outdir : List Char) :
    Nat → List (List Char) → Option (List (List Char))
  | _, [] => some []
  | i, t :: ts =>
    match seekIndex v t with
    | none => none
    | some f =>
      match extractVideoFramesAux v outdir (i + 1) ts with
      | none => none
      | some rest =>
        if v.readOk f then
          some (pathJoin outdir (evidenceFileName i t f) :: rest)
        else some rest

/-- Embedding of `_extract_video_frames` (src/main.py:473-529). -/
def extractVideoFrames (v : Video) (timestamps : List (List Char))
    (outdir : List Char) : Option (List (List Char)) :=
  if timestamps = [] then some []
  else if v.openedOk then extractVideoFramesAux v outdir 0 timestamps
  else some []

def imgWidth : Nat := 300

def imgHeight : Nat := 300

/-- Source line `cols = min(4, len(screenshot_files) + 1)`. -/
def colsOf (n : Nat) : Nat := min 4 (n + 1)

/-- Source line `rows = (len(screenshot_files) + 1 + cols - 1) // cols`. -/
def rowsOf (n : Nat) : Nat := (n + 1 + colsOf n - 1) / colsOf n

/-- Source line `canvas_width = cols * img_width + (cols + 1) * 20`. -/
def canvasWidth (n : Nat) : Nat := colsOf n * imgWidth + (colsOf n + 1) * 20

/-- Source line `canvas_height = rows * (img_height + 40) + 40`. -/
def canvasHeight (n : Nat) : Nat := rowsOf n * (imgHeight + 40) + 40

/-- The reference photo is pasted at `(20, 40)`. -/
def refPos : Nat × Nat := (20, 40)

/-- Grid column of screenshot `i` (0-based), after the `col == 0` fixup. -/
def shotCol (n i : Nat) : Nat :=
  if (i + 1) % colsOf n = 0 then colsOf n else (i + 1) % colsOf n

/-- Grid row of screenshot `i` (0-based), after the `col == 0` fixup. -/
def shotRow (n i : Nat) : Nat :=
  if (i + 1) % colsOf n = 0 then (i + 1) / colsOf n - 1
  else (i + 1) / colsOf n

/-- Source line `x = col * (img_width + 20)`. -/
def shotX (n i : Nat) : Nat := shotCol n i * (imgWidth + 20)

/-- Source line `y = row * (img_height + 40) + 40`. -/
def shotY (n i : Nat) : Nat := shotRow n i * (imgHeight + 40) + 40

structure Env where
  uploadRef : Except (List Char) Nat
  uploadVideo : Except (List Char) Nat
  waitOn : Nat → Except (List Char) Nat
  generate : Except (List Char) (List Char)
  framesFor : List (List Char) → Except (List Char) (List (List Char))
  composeFor : List (List Char) → Option (List Char)

/-- The dict returned by `analyze_person_in_video` (fields absent from the
failure dict are modelled by their empty defaults). -/
structure AnalyzeResult where
  success : Bool
  error : Option (List Char)
  analysis : Option (List Char)
  timestamps : List (List Char)
  screenshot_files : List (List Char)
  comparison_file : Option (List Char)
deriving DecidableEq, Repr

/-- The `except Exception` handler: `{'success': False, 'error': str(e)}`. -/
def failResult (e : List Char) : AnalyzeResult :=
  { success := false, error := some e, analysis := none,
    timestamps := [], screenshot_files := [], comparison_file := none }

/-- Embedding of `analyze_person_in_video`: the whole pipeline inside one `try`, every
step's exception short-circuiting to the failure dict. -/
def analyzePersonInVideo (env : Env) : AnalyzeResult :=
  match env.uploadRef with
  | .error e => failResult e
  | .ok rf =>
    match env.uploadVideo with
    | .error e => failResult e
    | .ok vf =>
      match env.waitOn rf with
      | .error e => failResult e
      | .ok _ =>
        match env.waitOn vf with
        | .error e => failResult e
        | .ok _ =>
          match env.generate with
          | .error e => failResult e
          | .ok text =>
            let data := extractAnalysisData text
            match (if data.timestamps = [] then Except.ok []
                   else env.framesFor data.timestamps) with
            | .error e => failResult e
            | .ok shots =>
              { success := true, error := none, analysis := some text,
                timestamps := data.timestamps, screenshot_files := shots,
                comparison_file :=
                  if data.timestamps ≠ [] ∧ shots ≠ [] then
                    env.composeFor shots
                  else none }

/-- The message of the first pipeline step that raises, if any, in the
order the steps run. -/
def firstError (env : Env) : Option (List Char) :=
  match env.uploadRef with
  | .error e => some e
  | .ok rf =>
    match env.uploadVideo with
    | .error e => some e
    | .ok vf =>
      match env.waitOn rf with
      | .error e => some e
      | .ok _ =>
        match env.waitOn vf with
        | .error e => some e
        | .ok _ =>
          match env.generate with
          | .error e => some e
          | .ok text =>
            match (if (extractAnalysisData text).timestamps = [] then
                     Except.ok []
                   else env.framesFor (extractAnalysisData text).timestamps) with
            | .error e => some e
            | .ok _ => none

/-- The successive values written to `self.upload_progress` by
`simulate_upload_progress` (src/main.py:61-65): `i + 1` for
`i in range(100)`, independently of the file being uploaded. -/
def simulateUploadProgress (filePath : List Char) : List Nat :=
  (List.range 100).map (· + 1)

/-- The successive `update` increments of the analysis progress bar in
`simulate_analysis_progress` (src/main.py:249-264): three timed loops of
30, 40 and 30 unit updates, independently of the model call. -/
def simulateAnalysisProgress (modelBehavior : List Char) : List Nat :=
  List.replicate 30 1 ++ List.replicate 40 1 ++ List.replicate 30 1

def oneOrTwoDigits : List Char → Bool
  | [a] => a.isDigit
  | [a, b] => a.isDigit && b.isDigit
  | _ => false

def twoDigits : List Char → Bool
  | [a, b] => a.isDigit && b.isDigit
  | _ => false

/-- Claim C1's description of the timestamp pattern: one-or-two digits,
`:`, two digits, optionally `:` and two more digits, optionally `.` and
one or two digits. -/
def specTimestampShape (t : List Char) : Prop :=
  ∃ mm ss oss off,
    t = mm ++ ':' :: ss ++ oss ++ off ∧
    oneOrTwoDigits mm = true ∧ twoDigits ss = true ∧
    (oss = [] ∨ ∃ s2, oss = ':' :: s2 ∧ twoDigits s2 = true) ∧
    (off = [] ∨ ∃ fr, off = '.' :: fr ∧ oneOrTwoDigits fr = true)

/-- Claim C1's "a marker followed by a bracketed list occurs in the text":
somewhere, a case variant of the marker, then whitespace, then `[`, then on
the same line a closing `]`. -/
def markerBracketOccurs (marker text : List Char) : Prop :=
  ∃ pre m ws mid suf,
    text = pre ++ m ++ ws ++ '[' :: (mid ++ ']' :: suf) ∧
    lowerList m = lowerList marker ∧
    (∀ c ∈ ws, isPySpace c = true) ∧
    '\n' ∉ mid

/-- Claim C4's "the text contains `MARKER: N/10`" anchored at the head of
`l` (case-insensitive marker, whitespace, a digit run with value `N`,
`/10`). -/
def specScoreMatch (marker : List Char) (n : Nat) (l : List Char) : Prop :=
  ∃ m ws ds suf,
    l = m ++ ws ++ ds ++ '/' :: '1' :: '0' :: suf ∧
    lowerList m = lowerList marker ∧
    (∀ c ∈ ws, isPySpace c = true) ∧
    ds ≠ [] ∧ (∀ c ∈ ds, c.isDigit = true) ∧
    natOfDigits ds = n

/-- Claim C4's "the text contains `MARKER: N/10`" at position `i`. -/
def specScoreOccursAt (marker : List Char) (n : Nat) (text : List Char)
    (i : Nat) : Prop :=
  specScoreMatch marker n (text.drop i)

/-- Claim C4's leftmost semantics: `N` is the value at the leftmost
position where `MARKER: N/10` occurs
("first match wins"). -/
def specScoreLeftmost (marker : List Char) (n : Nat)
    (text : List Char) : Prop :=
  ∃ i, specScoreOccursAt marker n text i ∧
    ∀ j < i, ∀ k, ¬ specScoreOccursAt marker k text j

/-- Claim C4's combined semantics for a Chinese marker with an English
fallback: the Chinese pattern's leftmost match wins; the English pattern is
consulted only when the Chinese one occurs nowhere. -/
def specScoreFirst (zh en : List Char) (n : Nat) (text : List Char) : Prop :=
  specScoreLeftmost zh n text ∨
    ((∀ i k, ¬ specScoreOccursAt zh k text i) ∧ specScoreLeftmost en n text)

/-- Predicate `ChainedIn ts g`: the strings `ts` occur pairwise-disjointly and in this
order as substrings of `g` (claim C1's "taken in order of occurrence"). -/
inductive ChainedIn : List (List Char) → List Char → Prop
  | nil (g : List Char) : ChainedIn [] g
  | cons (pre t : List Char) (ts : List (List Char)) (rest : List Char) :
      ChainedIn ts rest → ChainedIn (t :: ts) (pre ++ t ++ rest)

/-- Claim C1's description of `re.findall`: the returned list consists of
exactly the substrings matching the pattern, taken in order of occurrence
with findall's semantics — each returned string is a pattern match
(`specTimestampShape`), it is the match at the leftmost position at or
after the end of the previous one where any match starts (no match begins
inside the skipped `pre`), and at that position it is the pattern's match
(for this pattern the greedy regex match is the longest matching prefix);
scanning then resumes right after it.  An empty result means no substring
of the group matches. -/
inductive FindAllSpec : List Char → List (List Char) → Prop
  | empty (g : List Char)
      (hno : ¬ ∃ pre t suf, g = pre ++ t ++ suf ∧ specTimestampShape t) :
      FindAllSpec g []
  | found (pre t rest : List Char) (ts : List (List Char))
      (hsh : specTimestampShape t)
      (hmax : ∀ t2 r2, t ++ rest = t2 ++ r2 → specTimestampShape t2 →
        t2.length ≤ t.length)
      (hleft : ∀ pre2 t2 suf2, pre ++ t ++ rest = pre2 ++ t2 ++ suf2 →
        specTimestampShape t2 → pre.length ≤ pre2.length)
      (hrec : FindAllSpec rest ts) :
      FindAllSpec (pre ++ t ++ rest) (t :: ts)

/-- Claim C1's "the first bracketed list following the marker", anchored at
the head of `l`: a case variant of the marker, then whitespace, then `[`,
then the group `g` itself — which, being everything up to the first `]` on
the same line, contains no `]` and no newline — then the closing `]`. -/
def specMarkerGroup (marker g l : List Char) : Prop :=
  ∃ m ws suf, l = m ++ ws ++ '[' :: (g ++ ']' :: suf) ∧
    lowerList m = lowerList marker ∧
    (∀ c ∈ ws, isPySpace c = true) ∧
    '\n' ∉ g ∧ ']' ∉ g

/-- The marker-and-group pattern matches at position `i` of the text with
group `g`. -/
def specMarkerGroupAt (marker g text : List Char) (i : Nat) : Prop :=
  specMarkerGroup marker g (text.drop i)

/-- Claim C1's group selection: the bracketed list is the one at the
leftmost match of the Chinese pattern; the English pattern is consulted,
again leftmost-first, only when the Chinese pattern matches nowhere. -/
def specEvidenceGroup (g text : List Char) : Prop :=
  (∃ i, specMarkerGroupAt zhTimestampMarker g text i ∧
    ∀ j < i, ∀ g2, ¬ specMarkerGroupAt zhTimestampMarker g2 text j) ∨
  ((∀ i g2, ¬ specMarkerGroupAt zhTimestampMarker g2 text i) ∧
    ∃ i, specMarkerGroupAt enTimestampMarker g text i ∧
      ∀ j < i, ∀ g2, ¬ specMarkerGroupAt enTimestampMarker g2 text j)

/-- Claim C5's description of the output of `_extract_video_frames`: one
file path per timestamp whose frame read succeeds, in timestamp order, each
of the form `<outdir>/evidence_<i+1>_<sanitized timestamp>_frame<n>.jpg`. -/
def specEvidencePaths (v : Video) (outdir : List Char)
    (ts : List (List Char)) : List (List Char) :=
  ((List.range ts.length).zip ts).filterMap fun p =>
    match seekIndex v p.2 with
    | none => none
    | some f =>
      if v.readOk f then
        some (outdir ++ '/' :: ("evidence_".toList ++ natDigits (p.1 + 1)
          ++ '_' :: sanitizeTimestamp p.2 ++ "_frame".toList ++ intDigits f
          ++ ".jpg".toList))
      else none

/-- A pipeline environment in which every step succeeds. -/
def envOkSample : Env :=
  { uploadRef := Except.ok 0, uploadVideo := Except.ok 1,
    waitOn := fun n => Except.ok n,
    generate := Except.ok "hello".toList,
    framesFor := fun _ => Except.ok [],
    composeFor := fun _ => none }

/-- A pipeline environment whose video upload raises. -/
def envErrSample : Env :=
  { uploadRef := Except.ok 0,
    uploadVideo := Except.error "boom".toList,
    waitOn := fun n => Except.ok n,
    generate := Except.ok "hello".toList,
    framesFor := fun _ => Except.ok [],
    composeFor := fun _ => none }

/-- A nonempty all-digit field. -/
def digitsField (l : List Char) : Prop :=
  l ≠ [] ∧ ∀ c ∈ l, c.isDigit = true

/-- The colon-separated time part `MM:SS` or `HH:MM:SS`. -/
def timePartText : Option (List Char) → List Char → List Char → List Char
  | none, mm, ss => mm ++ ':' :: ss
  | some h, mm, ss => h ++ ':' :: (mm ++ ':' :: ss)

/-- A timestamp of claim C2's form `[HH:]MM:SS[.FF]`. -/
def timeText (hh : Option (List Char)) (mm ss : List Char)
    (ff : Option (List Char)) : List Char :=
  timePartText hh mm ss ++ (match ff with | some f => '.' :: f | none => [])

/-- The "total whole seconds" named by the timestamp. -/
def specWholeSeconds : Option (List Char) → List Char → List Char → Int
  | none, mm, ss => 60 * (natOfDigits mm : Int) + natOfDigits ss
  | some h, mm, ss =>
      3600 * (natOfDigits h : Int) + 60 * natOfDigits mm + natOfDigits ss

/-- The integer value of the digits after the dot (0 when absent). -/
def specFF : Option (List Char) → Int
  | some f => (natOfDigits f : Int)
  | none => 0

/-- The spec's example timestamp `00:09.15` as a `timeText`. -/
def tsSample : List Char :=
  timeText none "00".toList "09".toList (some "15".toList)

/-- A capture that opened but reports zero frames. -/
def videoSampleZero : Video :=
  { openedOk := true, fps := 30, total_frames := 0, readOk := fun _ => true }

/-- A capture that opened, at 30 fps with plenty of frames, whose reads
all succeed. -/
def videoSample : Video :=
  { openedOk := true, fps := 30, total_frames := 100000,
    readOk := fun _ => true }

/-! ## Theorems -/

theorem matchOptColonDigits_length (l : List Char) :
    (matchOptColonDigits l).2.length ≤ l.length := by
  unfold matchOptColonDigits
  split <;> simp_all <;> split <;> simp_all <;> omega

theorem matchOptFrac_length (l : List Char) :
    (matchOptFrac l).2.length ≤ l.length := by
  unfold matchOptFrac
  split <;> (try split) <;> (try split) <;> simp_all <;> omega

theorem matchTail_length {l m r : List Char} (h : matchTail l = some (m, r)) :
    r.length + 2 ≤ l.length := by
  unfold matchTail at h
  split at h
  case h_1 d1 d2 rest =>
    split at h
    · simp only [Option.some.injEq, Prod.mk.injEq] at h
      have h1 := matchOptColonDigits_length rest
      have h2 := matchOptFrac_length (matchOptColonDigits rest).2
      simp only [← h.2]
      simp only [List.length_cons]
      omega
    · exact absurd h (by simp)
  case h_2 => exact absurd h (by simp)

theorem matchTimestampAt_length {l m r : List Char}
    (h : matchTimestampAt l = some (m, r)) : r.length < l.length := by
  unfold matchTimestampAt at h
  split at h
  case h_1 a b c rest =>
    split at h
    · rcases Option.map_eq_some'.mp h with ⟨⟨m', r'⟩, hm, he⟩
      have := matchTail_length hm
      simp only [Prod.mk.injEq] at he
      simp [← he.2, List.length_cons]; omega
    · split at h
      · rcases Option.map_eq_some'.mp h with ⟨⟨m', r'⟩, hm, he⟩
        have := matchTail_length hm
        simp only [List.length_cons] at this
        simp only [Prod.mk.injEq] at he
        simp [← he.2, List.length_cons]; omega
      · exact absurd h (by simp)
  case h_2 => exact absurd h (by simp)

theorem findAllAux_fuel : ∀ f1 f2 (l : List Char), l.length ≤ f1 →
    l.length ≤ f2 → findAllAux f1 l = findAllAux f2 l := by
  intro f1
  induction f1 with
  | zero =>
    intro f2 l h1 _
    have : l = [] := List.length_eq_zero.mp (Nat.le_zero.mp h1)
    subst this
    cases f2 <;> rfl
  | succ f1 ih =>
    intro f2 l h1 h2
    cases l with
    | nil => cases f2 <;> rfl
    | cons c cs =>
      cases f2 with
      | zero => exact absurd h2 (by simp)
      | succ f2 =>
        simp only [findAllAux]
        cases hm : matchTimestampAt (c :: cs) with
        | some p =>
          have hlt := matchTimestampAt_length hm
          simp only [List.length_cons] at h1 h2 hlt
          dsimp only
          rw [ih f2 p.2 (by omega) (by omega)]
        | none =>
          simp only [List.length_cons] at h1 h2
          dsimp only
          exact ih f2 cs (by omega) (by omega)

/-- The defining one-step equation of `findAllTimestamps`. -/
theorem findAllTimestamps_cons (c : Char) (cs : List Char) :
    findAllTimestamps (c :: cs) =
      match matchTimestampAt (c :: cs) with
      | some p => p.1 :: findAllTimestamps p.2
      | none => findAllTimestamps cs := by
  simp only [findAllTimestamps, List.length_cons, findAllAux]
  cases hm : matchTimestampAt (c :: cs) with
  | some p =>
    have hlt := matchTimestampAt_length hm
    simp only [List.length_cons] at hlt
    dsimp only
    rw [findAllAux_fuel cs.length p.2.length p.2 (by omega) (by omega)]
  | none => rfl

theorem isPySpace_eq_false_of_isDigit {c : Char} (h : c.isDigit = true) :
    isPySpace c = false := by
  by_contra hc
  have hc' : isPySpace c = true := by
    cases hps : isPySpace c
    · exact absurd hps hc
    · rfl
  have hmem : c = ' ' ∨ c = '\t' ∨ c = '\n' ∨ c = '\r' ∨ c = '\x0b' ∨
      c = '\x0c' := by
    simpa [isPySpace, or_assoc] using hc'
  rcases hmem with he | he | he | he | he | he <;>
    (subst he; exact absurd h (by decide))

theorem splitOnChar_ne_nil (sep : Char) (l : List Char) :
    splitOnChar sep l ≠ [] := by
  cases l with
  | nil => simp [splitOnChar]
  | cons c cs =>
    simp only [splitOnChar]
    split
    · split <;> simp
    · split <;> simp

theorem splitOnChar_of_not_mem {sep : Char} {l : List Char}
    (h : sep ∉ l) : splitOnChar sep l = [l] := by
  induction l with
  | nil => rfl
  | cons c cs ih =>
    simp only [List.mem_cons, not_or] at h
    simp only [splitOnChar, ih h.2]
    rw [if_neg (by exact fun he => h.1 he.symm)]

theorem splitOnChar_append_cons (sep : Char) {a : List Char}
    (b : List Char) (h : sep ∉ a) :
    splitOnChar sep (a ++ sep :: b) = a :: splitOnChar sep b := by
  induction a with
  | nil =>
    simp only [List.nil_append, splitOnChar]
    match hb : splitOnChar sep b with
    | [] => exact absurd hb (splitOnChar_ne_nil sep b)
    | g :: gs => simp
  | cons c cs ih =>
    simp only [List.mem_cons, not_or] at h
    simp only [List.cons_append, splitOnChar]
    rw [show cs ++ sep :: b = List.append cs (sep :: b) from rfl] at ih
    rw [ih h.2]
    simp [Ne.symm h.1]

theorem not_mem_of_all_digits {c : Char} (hc : c.isDigit = false)
    {l : List Char} (h : ∀ x ∈ l, x.isDigit = true) : c ∉ l := by
  intro hm
  rw [h c hm] at hc
  exact absurd hc (by decide)

theorem dropWhile_pySpace_of_digits {l : List Char}
    (h : ∀ x ∈ l, x.isDigit = true) : l.dropWhile isPySpace = l := by
  cases l with
  | nil => rfl
  | cons c cs =>
    rw [List.dropWhile_cons_of_neg]
    rw [isPySpace_eq_false_of_isDigit (h c (by simp))]
    exact Bool.false_ne_true

theorem pyIntOfChars_digits {ds : List Char} (hne : ds ≠ [])
    (hd : ∀ x ∈ ds, x.isDigit = true) :
    pyIntOfChars ds = some (natOfDigits ds : Int) := by
  obtain ⟨c, cs, rfl⟩ : ∃ c cs, ds = c :: cs := by
    cases ds with
    | nil => exact absurd rfl hne
    | cons c cs => exact ⟨c, cs, rfl⟩
  have hrev : ∀ x ∈ (c :: cs).reverse, x.isDigit = true := fun x hx =>
    hd x (List.mem_reverse.mp hx)
  have hc := hd c (by simp)
  simp only [pyIntOfChars]
  rw [dropWhile_pySpace_of_digits hd, dropWhile_pySpace_of_digits hrev,
    List.reverse_reverse]
  have hcm : c ≠ '-' := fun he => by subst he; exact absurd hc (by decide)
  have hcp : c ≠ '+' := fun he => by subst he; exact absurd hc (by decide)
  split
  · rename_i ds1 heq
    exact absurd (List.cons.inj heq).1 hcm
  · rename_i ds1 heq
    exact absurd (List.cons.inj heq).1 hcp
  · rw [if_pos ⟨by simp, by rw [List.all_eq_true]; exact hd⟩]

theorem pyTrunc_of_nonneg {q : ℚ} (h : 0 ≤ q) : pyTrunc q = ⌊q⌋ := by
  simp [pyTrunc, h]

theorem pyTrunc_nonneg {q : ℚ} (h : 0 ≤ q) : 0 ≤ pyTrunc q := by
  rw [pyTrunc_of_nonneg h]
  exact Int.floor_nonneg.mpr h

/-- C8: the simulated upload progress does not depend on the file being
uploaded or on real transfer progress: the sequence of values written to
`upload_progress` is the fixed sequence 1 through 100 for any two input
files, and the analysis progress bar advances through the same fixed 100
unit steps regardless of the model call's behaviour. -/
theorem claim_C8_progress_independent (f₁ f₂ b₁ b₂ : List Char) :
    simulateUploadProgress f₁ = simulateUploadProgress f₂ ∧
    simulateUploadProgress f₁ = List.range' 1 100 ∧
    simulateAnalysisProgress b₁ = simulateAnalysisProgress b₂ ∧
    simulateAnalysisProgress b₁ = List.replicate 100 1 :=
  ⟨rfl, by unfold simulateUploadProgress; decide, rfl,
    by unfold simulateAnalysisProgress; decide⟩

/-- C7: for every input string, `_extract_analysis_data_from_response`
terminates (it is a total function) and returns a dict with exactly the
keys `timestamps`, `liveness_score`, `biometric_score`,
`spoofing_risk_score`, where `timestamps` is a list of strings and each
score is either `None` or a nonnegative integer. -/
theorem claim_C7_result_shape (text : List Char) :
    ∃ (ts : List (List Char)) (ls bs ss : Option Nat),
      extractAnalysisData text =
        { timestamps := ts, liveness_score := ls, biometric_score := bs,
          spoofing_risk_score := ss } ∧
      (ls = none ∨ ∃ n : ℕ, ls = some n ∧ 0 ≤ (n : ℤ)) ∧
      (bs = none ∨ ∃ n : ℕ, bs = some n ∧ 0 ≤ (n : ℤ)) ∧
      (ss = none ∨ ∃ n : ℕ, ss = some n ∧ 0 ≤ (n : ℤ)) := by
  have hopt : ∀ o : Option Nat, o = none ∨ ∃ n : ℕ, o = some n ∧ 0 ≤ (n : ℤ) := by
    intro o
    cases o with
    | none => exact Or.inl rfl
    | some n => exact Or.inr ⟨n, rfl, Int.natCast_nonneg n⟩
  exact ⟨_, _, _, _, rfl, hopt _, hopt _, hopt _⟩

/-- C6 counterexample: with n = 4 screenshots the grid has 4 columns, and
the fourth screenshot (i = 3, grid position 4) is pasted at
x = 4 * 320 = 1280, so its right edge 1280 + 300 = 1580 exceeds the canvas
width 4 * 300 + 5 * 20 = 1300: it is not pasted entirely within the canvas
bounds, refuting the claim as stated. -/
theorem claim_C6_counterexample :
    1 ≤ 4 ∧ ¬(shotX 4 3 + imgWidth ≤ canvasWidth 4) := by decide

/-- C6 (amended): for n ≥ 1 screenshots the grid has min(4, n+1) columns
and ceil((n+1)/cols) rows (the grid holds all n+1 images), the canvas is
cols*300 + (cols+1)*20 by rows*340 + 40, the reference photo and every
screenshot whose 1-based grid position is not a multiple of the column
count are pasted entirely within the canvas bounds (in particular all of
them when n ≤ 3), and every screenshot fits vertically; but a screenshot
whose grid position is a multiple of the column count (possible only for
n ≥ 4) is pasted at x = cols*320 and extends past the right canvas edge. -/
theorem claim_C6_layout (n i : Nat) (hn : 1 ≤ n) (hi : i < n) :
    (colsOf n = min 4 (n + 1) ∧ n + 1 ≤ rowsOf n * colsOf n) ∧
    (refPos.1 + imgWidth ≤ canvasWidth n ∧
      refPos.2 + imgHeight ≤ canvasHeight n) ∧
    shotY n i + imgHeight ≤ canvasHeight n ∧
    ((i + 1) % colsOf n ≠ 0 → shotX n i + imgWidth ≤ canvasWidth n) ∧
    ((i + 1) % colsOf n = 0 → canvasWidth n < shotX n i + imgWidth) := by
  have hcase : n = 1 ∨ n = 2 ∨ 3 ≤ n := by omega
  rcases hcase with rfl | rfl | h3
  · interval_cases i
    decide
  · interval_cases i <;> decide
  · have hc : colsOf n = 4 := by
      unfold colsOf
      omega
    refine ⟨⟨rfl, ?_⟩, ?_, ?_, ?_, ?_⟩
    · rw [hc]
      unfold rowsOf
      rw [hc]
      omega
    · unfold canvasWidth canvasHeight rowsOf refPos imgWidth imgHeight
      rw [hc]
      constructor <;> omega
    · unfold shotY shotRow canvasHeight rowsOf imgHeight
      rw [hc]
      split <;> omega
    · intro hmod
      rw [hc] at hmod
      unfold shotX shotCol canvasWidth imgWidth
      rw [hc]
      rw [if_neg hmod]
      omega
    · intro hmod
      rw [hc] at hmod
      unfold shotX shotCol canvasWidth imgWidth
      rw [hc]
      rw [if_pos hmod]
      omega

/-- C3: `analyze_person_in_video` never propagates an exception: if any
step of the pipeline raises, the method returns a dict with `success`
False and `error` the exception's message; on a run where no exception
escapes it returns `success` True with `analysis` the model's response
text. -/
theorem claim_C3_no_exception_escape (env : Env) :
    (∀ e, firstError env = some e →
      analyzePersonInVideo env = failResult e) ∧
    (firstError env = none →
      ∃ text, env.generate = Except.ok text ∧
        (analyzePersonInVideo env).success = true ∧
        (analyzePersonInVideo env).error = none ∧
        (analyzePersonInVideo env).analysis = some text) := by
  unfold firstError analyzePersonInVideo
  cases h1 : env.uploadRef with
  | error e => simp [h1]
  | ok rf =>
    simp only [h1]
    cases h2 : env.uploadVideo with
    | error e => simp [h2]
    | ok vf =>
      simp only [h2]
      cases h3 : env.waitOn rf with
      | error e => simp [h3]
      | ok r1 =>
        simp only [h3]
        cases h4 : env.waitOn vf with
        | error e => simp [h4]
        | ok r2 =>
          simp only [h4]
          cases h5 : env.generate with
          | error e => simp [h5]
          | ok text =>
            simp only [h5]
            cases h6 : (if (extractAnalysisData text).timestamps = [] then
                Except.ok ([] : List (List Char))
              else env.framesFor (extractAnalysisData text).timestamps) with
            | error e => simp [h6]
            | ok shots =>
              simp only [h6]
              refine ⟨fun e he => Option.noConfusion he, fun _ => ⟨text, ?_⟩⟩
              simp

/-- Witness for C3: on an all-success environment the result is a success
dict carrying the response text, and on an environment whose upload step
raises `boom` the result is the failure dict with that message. -/
theorem claim_C3_witness :
    ((analyzePersonInVideo envOkSample).success = true ∧
      (analyzePersonInVideo envOkSample).analysis = some "hello".toList) ∧
    analyzePersonInVideo envErrSample = failResult "boom".toList := by
  constructor
  · obtain ⟨t, ht, h1, h2, h3⟩ :=
      (claim_C3_no_exception_escape envOkSample).2 (by decide)
    have : t = "hello".toList := by
      have h := ht.symm.trans (rfl : envOkSample.generate = Except.ok "hello".toList)
      exact Except.ok.inj h
    subst this
    exact ⟨h1, h3⟩
  · exact (claim_C3_no_exception_escape envErrSample).1 "boom".toList (by decide)

/-- C9 counterexample: the claim fails on `"1:23."` (a string with one
`.`): `_convert_timestamp_to_seconds` returns 83, while
`_convert_timestamp_to_frame_info` raises `ValueError` (modelled `none`)
from `int('')` before ever computing `total_seconds`, so the two parsers
do not agree there. -/
theorem claim_C9_counterexample :
    ("1:23.".toList.count '.') ≤ 1 ∧
    convertTimestampToSeconds "1:23.".toList = some 83 ∧
    (convertTimestampToFrameInfo "1:23.".toList 30).map
      FrameInfo.total_seconds = none := by decide

/-- C9 (amended): whenever `_convert_timestamp_to_frame_info` returns at
all (in particular for every well-formed timestamp, and for the malformed
field counts where both parsers yield 0), `_convert_timestamp_to_seconds`
agrees with its `total_seconds` field; but a timestamp whose fragment
after `.` does not parse as an integer makes `_convert_timestamp_to_frame_info`
raise while `_convert_timestamp_to_seconds` still returns a value. -/
theorem claim_C9_parsers_agree (ts : List Char) (fps : ℚ) (fi : FrameInfo)
    (h : convertTimestampToFrameInfo ts fps = some fi) :
    convertTimestampToSeconds ts = some fi.total_seconds := by
  unfold convertTimestampToFrameInfo at h
  unfold convertTimestampToSeconds
  cases hs : splitOnChar '.' ts with
  | nil => rw [hs] at h; exact absurd h (by simp)
  | cons a l =>
    cases l with
    | nil =>
      rw [hs] at h
      have h' : Option.map (fun (s : Int) =>
          FrameInfo.mk s 0 (pyTrunc ((s : ℚ) * fps)) (a ++ '.' :: format02 0))
          (timePartSeconds a) = some fi := h
      simp only [Option.map_eq_some'] at h'
      obtain ⟨s, hsec, hfi⟩ := h'
      show timePartSeconds a = some fi.total_seconds
      rw [hsec, ← hfi]
    | cons b l2 =>
      cases l2 with
      | nil =>
        rw [hs] at h
        have h' : (pyIntOfChars b).bind (fun fo => Option.map (fun (s : Int) =>
            FrameInfo.mk s fo (pyTrunc ((s : ℚ) * fps) + fo)
              (a ++ '.' :: format02 fo)) (timePartSeconds a)) = some fi := h
        simp only [Option.bind_eq_some, Option.map_eq_some'] at h'
        obtain ⟨fo, _, s, hsec, hfi⟩ := h'
        show timePartSeconds a = some fi.total_seconds
        rw [hsec, ← hfi]
      | cons c l3 =>
        rw [hs] at h
        exact absurd h (by simp)

/-- Witness for C9 (amended): at the concrete timestamp `0:05` and
fps 30, `_convert_timestamp_to_frame_info` succeeds with
`total_seconds = 5` and `_convert_timestamp_to_seconds` agrees. -/
theorem claim_C9_witness :
    convertTimestampToSeconds "0:05".toList = some (5 : Int) := by
  have hfi : convertTimestampToFrameInfo "0:05".toList 30 =
      some ⟨5, 0, 150, "0:05.00".toList⟩ := by
    simp only [convertTimestampToFrameInfo]
    rw [show splitOnChar '.' "0:05".toList = ["0:05".toList] from by decide]
    dsimp only
    rw [show timePartSeconds "0:05".toList = some 5 from by decide]
    simp only [Option.map_some']
    rw [pyTrunc_of_nonneg (by norm_num)]
    norm_num
    decide
  exact claim_C9_parsers_agree "0:05".toList 30 ⟨5, 0, 150, "0:05.00".toList⟩ hfi

theorem not_mem_append_colon {c : Char} {a b : List Char} (hc : c ≠ ':')
    (ha : c ∉ a) (hb : c ∉ b) : c ∉ a ++ ':' :: b := by
  intro hm
  rcases List.mem_append.mp hm with h | h
  · exact ha h
  · rcases List.mem_cons.mp h with h | h
    · exact hc h
    · exact hb h

theorem timePartSeconds_two {mm ss : List Char} (hmm : digitsField mm)
    (hss : digitsField ss) :
    timePartSeconds (mm ++ ':' :: ss) =
      some (60 * (natOfDigits mm : Int) + natOfDigits ss) := by
  unfold timePartSeconds
  rw [splitOnChar_append_cons ':' ss (not_mem_of_all_digits (by decide) hmm.2),
    splitOnChar_of_not_mem (not_mem_of_all_digits (by decide) hss.2)]
  show (pyIntOfChars mm).bind (fun mv =>
    (pyIntOfChars ss).map fun sv => mv * 60 + sv) = _
  rw [pyIntOfChars_digits hmm.1 hmm.2, pyIntOfChars_digits hss.1 hss.2]
  simp only [Option.some_bind, Option.map_some']
  exact congrArg some (by ring)

theorem timePartSeconds_three {h mm ss : List Char} (hh : digitsField h)
    (hmm : digitsField mm) (hss : digitsField ss) :
    timePartSeconds (h ++ ':' :: (mm ++ ':' :: ss)) =
      some (3600 * (natOfDigits h : Int) + 60 * natOfDigits mm
        + natOfDigits ss) := by
  unfold timePartSeconds
  rw [splitOnChar_append_cons ':' (mm ++ ':' :: ss)
      (not_mem_of_all_digits (by decide) hh.2),
    splitOnChar_append_cons ':' ss (not_mem_of_all_digits (by decide) hmm.2),
    splitOnChar_of_not_mem (not_mem_of_all_digits (by decide) hss.2)]
  show (pyIntOfChars h).bind (fun hv => (pyIntOfChars mm).bind (fun mv =>
    (pyIntOfChars ss).map fun sv => hv * 3600 + mv * 60 + sv)) = _
  rw [pyIntOfChars_digits hh.1 hh.2, pyIntOfChars_digits hmm.1 hmm.2,
    pyIntOfChars_digits hss.1 hss.2]
  simp only [Option.some_bind, Option.map_some']
  exact congrArg some (by ring)

theorem timePartSeconds_timePartText {hh : Option (List Char)}
    {mm ss : List Char} (hhd : ∀ h ∈ hh, digitsField h)
    (hmm : digitsField mm) (hss : digitsField ss) :
    timePartSeconds (timePartText hh mm ss) =
      some (specWholeSeconds hh mm ss) := by
  cases hh with
  | none => exact timePartSeconds_two hmm hss
  | some h =>
    exact timePartSeconds_three (hhd h (by simp)) hmm hss

theorem dot_not_mem_timePartText {hh : Option (List Char)}
    {mm ss : List Char} (hhd : ∀ h ∈ hh, digitsField h)
    (hmm : digitsField mm) (hss : digitsField ss) :
    '.' ∉ timePartText hh mm ss := by
  have hbase : '.' ∉ mm ++ ':' :: ss :=
    not_mem_append_colon (by decide)
      (not_mem_of_all_digits (by decide) hmm.2)
      (not_mem_of_all_digits (by decide) hss.2)
  cases hh with
  | none => exact hbase
  | some h =>
    exact not_mem_append_colon (by decide)
      (not_mem_of_all_digits (by decide) (hhd h (by simp)).2) hbase

/-- Computational core: `_convert_timestamp_to_frame_info` on a well-formed
timestamp. -/
theorem frameInfo_timeText (hh ff : Option (List Char)) (mm ss : List Char)
    (fps : ℚ) (hhd : ∀ h ∈ hh, digitsField h) (hmm : digitsField mm)
    (hss : digitsField ss) (hff : ∀ f ∈ ff, digitsField f) :
    convertTimestampToFrameInfo (timeText hh mm ss ff) fps =
      some ⟨specWholeSeconds hh mm ss, specFF ff,
        pyTrunc ((specWholeSeconds hh mm ss : ℚ) * fps) + specFF ff,
        timePartText hh mm ss ++ '.' :: format02 (specFF ff)⟩ := by
  unfold convertTimestampToFrameInfo timeText
  cases ff with
  | none =>
    rw [List.append_nil,
      splitOnChar_of_not_mem (dot_not_mem_timePartText hhd hmm hss)]
    show (timePartSeconds (timePartText hh mm ss)).map _ = _
    rw [timePartSeconds_timePartText hhd hmm hss]
    simp only [Option.map_some']
    congr 1
    show FrameInfo.mk _ _ _ _ = _
    rw [show specFF none = 0 from rfl, add_zero]
  | some f =>
    have hfd := hff f (by simp)
    rw [splitOnChar_append_cons '.' f (dot_not_mem_timePartText hhd hmm hss),
      splitOnChar_of_not_mem (not_mem_of_all_digits (by decide) hfd.2)]
    show (pyIntOfChars f).bind (fun fo =>
      (timePartSeconds (timePartText hh mm ss)).map _) = _
    rw [pyIntOfChars_digits hfd.1 hfd.2,
      timePartSeconds_timePartText hhd hmm hss]
    simp only [Option.some_bind, Option.map_some']
    rfl

/-- C2: for every timestamp of the form `MM:SS.FF` or `HH:MM:SS.FF` (or
those forms without the `.FF` suffix, `FF` then counting as 0) and every
frame rate `fps ≥ 0`, `_convert_timestamp_to_frame_info` returns
`exact_frame` equal to the floor of (the timestamp's total whole seconds
times `fps`) plus `FF`: the selected frame is the `FF`-th frame within the
named second. -/
theorem claim_C2_frame_accurate (hh ff : Option (List Char))
    (mm ss : List Char) (fps : ℚ) (hhd : ∀ h ∈ hh, digitsField h)
    (hmm : digitsField mm) (hss : digitsField ss)
    (hff : ∀ f ∈ ff, digitsField f) (hfps : 0 ≤ fps) :
    ∃ fi, convertTimestampToFrameInfo (timeText hh mm ss ff) fps = some fi ∧
      fi.total_seconds = specWholeSeconds hh mm ss ∧
      fi.frame_offset = specFF ff ∧
      fi.exact_frame =
        ⌊(specWholeSeconds hh mm ss : ℚ) * fps⌋ + specFF ff := by
  refine ⟨_, frameInfo_timeText hh ff mm ss fps hhd hmm hss hff, rfl, rfl, ?_⟩
  show pyTrunc _ + _ = _
  rw [pyTrunc_of_nonneg]
  have hsec : (0 : Int) ≤ specWholeSeconds hh mm ss := by
    cases hh <;> simp only [specWholeSeconds] <;> positivity
  exact mul_nonneg (by exact_mod_cast hsec) hfps

/-- Witness for C2: the timestamp `00:09.15` (the spec's example) at any
concrete nonnegative fps, here 30: total seconds 9, frame offset 15. -/
theorem claim_C2_witness :
    ∃ fi, convertTimestampToFrameInfo
        (timeText none "00".toList "09".toList (some "15".toList)) 30 =
          some fi ∧
      fi.total_seconds = specWholeSeconds none "00".toList "09".toList ∧
      fi.frame_offset = specFF (some "15".toList) ∧
      fi.exact_frame =
        ⌊(specWholeSeconds none "00".toList "09".toList : ℚ) * 30⌋ +
          specFF (some "15".toList) := by
  have h := claim_C2_frame_accurate none (some "15".toList) "00".toList
    "09".toList 30 (by intro h hm; exact absurd hm (by simp))
    ⟨by decide, by decide⟩ ⟨by decide, by decide⟩
    (by
      intro f hm
      rw [Option.mem_def, Option.some.injEq] at hm
      subst hm
      exact ⟨by decide, by decide⟩)
    (by norm_num)
  exact h

theorem digitsField_of_oneOrTwo {l : List Char}
    (h : oneOrTwoDigits l = true) : digitsField l := by
  cases l with
  | nil => simp [oneOrTwoDigits] at h
  | cons a t =>
    cases t with
    | nil =>
      refine ⟨by simp, fun c hc => ?_⟩
      rw [List.mem_singleton.mp hc]
      simpa [oneOrTwoDigits] using h
    | cons b t2 =>
      cases t2 with
      | nil =>
        simp only [oneOrTwoDigits, Bool.and_eq_true] at h
        refine ⟨by simp, fun c hc => ?_⟩
        rcases List.mem_cons.mp hc with rfl | hc2
        · exact h.1
        · rw [List.mem_singleton.mp hc2]
          exact h.2
      | cons d t3 => simp [oneOrTwoDigits] at h

theorem digitsField_of_two {l : List Char} (h : twoDigits l = true) :
    digitsField l := by
  cases l with
  | nil => simp [twoDigits] at h
  | cons a t =>
    cases t with
    | nil => simp [twoDigits] at h
    | cons b t2 =>
      cases t2 with
      | nil =>
        simp only [twoDigits, Bool.and_eq_true] at h
        refine ⟨by simp, fun c hc => ?_⟩
        rcases List.mem_cons.mp hc with rfl | hc2
        · exact h.1
        · rw [List.mem_singleton.mp hc2]
          exact h.2
      | cons d t3 => simp [twoDigits] at h

/-- Every string of the claimed timestamp pattern is a well-formed
`[HH:]MM:SS[.FF]` timestamp. -/
theorem shape_decomp {t : List Char} (h : specTimestampShape t) :
    ∃ hh mm ss ff, t = timeText hh mm ss ff ∧
      (∀ x ∈ hh, digitsField x) ∧ digitsField mm ∧ digitsField ss ∧
      (∀ f ∈ ff, digitsField f) := by
  obtain ⟨mm, ss, oss, off, ht, h1, h2, h3, h4⟩ := h
  have hmm := digitsField_of_oneOrTwo h1
  have hss := digitsField_of_two h2
  rcases h3 with rfl | ⟨s2, rfl, hs2⟩ <;> rcases h4 with rfl | ⟨fr, rfl, hfr⟩
  · refine ⟨none, mm, ss, none, ?_, by simp, hmm, hss, by simp⟩
    rw [ht]
    simp [timeText, timePartText]
  · refine ⟨none, mm, ss, some fr, ?_, by simp, hmm, hss, ?_⟩
    · rw [ht]
      simp [timeText, timePartText]
    · intro f hf
      rw [Option.mem_def, Option.some.injEq] at hf
      subst hf
      exact digitsField_of_oneOrTwo hfr
  · refine ⟨some mm, ss, s2, none,
      ?_, ?_, hss, digitsField_of_two hs2, by simp⟩
    · rw [ht]
      simp [timeText, timePartText]
    · intro x hx
      rw [Option.mem_def, Option.some.injEq] at hx
      subst hx
      exact hmm
  · refine ⟨some mm, ss, s2, some fr,
      ?_, ?_, hss, digitsField_of_two hs2, ?_⟩
    · rw [ht]
      simp [timeText, timePartText]
    · intro x hx
      rw [Option.mem_def, Option.some.injEq] at hx
      subst hx
      exact hmm
    · intro f hf
      rw [Option.mem_def, Option.some.injEq] at hf
      subst hf
      exact digitsField_of_oneOrTwo hfr

/-- A shaped timestamp always parses, with nonnegative seconds and offset. -/
theorem frameInfo_of_shape {t : List Char} (h : specTimestampShape t)
    (fps : ℚ) :
    ∃ fi, convertTimestampToFrameInfo t fps = some fi ∧
      0 ≤ fi.total_seconds ∧ 0 ≤ fi.frame_offset ∧
      fi.exact_frame =
        pyTrunc ((fi.total_seconds : ℚ) * fps) + fi.frame_offset := by
  obtain ⟨hh, mm, ss, ff, rfl, hhd, hmm, hss, hff⟩ := shape_decomp h
  refine ⟨_, frameInfo_timeText hh ff mm ss fps hhd hmm hss hff, ?_, ?_, rfl⟩
  · show (0 : Int) ≤ specWholeSeconds hh mm ss
    cases hh <;> simp only [specWholeSeconds] <;> positivity
  · show (0 : Int) ≤ specFF ff
    cases ff <;> simp [specFF]

/-- C10: `_extract_video_frames` never seeks past the end of the video:
the frame index passed to the frame-position setter is at most
`total_frames - 1` (an index at or beyond `total_frames` is clamped to
`total_frames - 1`), and for a video reporting 0 total frames this clamped
index is -1. -/
theorem claim_C10_seek_clamped (v : Video) (t : List Char) (i : Int)
    (h : seekIndex v t = some i) :
    i ≤ v.total_frames - 1 ∧
    (v.total_frames = 0 → 0 ≤ v.fps → specTimestampShape t → i = -1) := by
  unfold seekIndex at h
  rcases Option.map_eq_some'.mp h with ⟨fi, hfi, hi⟩
  constructor
  · rw [← hi]
    split
    · exact le_refl _
    · omega
  · intro h0 hfps hsh
    obtain ⟨fi', hfi', hts, hfo, hex⟩ := frameInfo_of_shape hsh v.fps
    rw [hfi] at hfi'
    obtain rfl := Option.some.inj hfi'
    have hnn : 0 ≤ fi.exact_frame := by
      rw [hex]
      have := pyTrunc_nonneg
        (mul_nonneg (by exact_mod_cast hts : (0:ℚ) ≤ (fi.total_seconds : ℚ)) hfps)
      omega
    rw [← hi, if_pos (by omega)]
    omega

theorem tsSample_shape : specTimestampShape tsSample :=
  ⟨"00".toList, "09".toList, [], '.' :: "15".toList, by decide, by decide,
    by decide, Or.inl rfl, Or.inr ⟨"15".toList, rfl, by decide⟩⟩

/-- Witness for C10: seeking `00:09.15` in a 30 fps video reporting 0 total
frames passes index -1 (= `total_frames - 1`) to the position setter. -/
theorem claim_C10_witness :
    ∃ i, seekIndex videoSampleZero tsSample = some i ∧
      i ≤ videoSampleZero.total_frames - 1 ∧ i = -1 := by
  have hfi := frameInfo_timeText none (some "15".toList) "00".toList
    "09".toList 30 (by intro x hx; exact absurd hx (by simp))
    ⟨by decide, by decide⟩ ⟨by decide, by decide⟩
    (by
      intro f hm
      rw [Option.mem_def, Option.some.injEq] at hm
      subst hm
      exact ⟨by decide, by decide⟩)
  have hnn : (0 : Int) ≤
      pyTrunc ((specWholeSeconds none "00".toList "09".toList : ℚ) * 30) +
        specFF (some "15".toList) := by
    have h1 : (0 : Int) ≤ specWholeSeconds none "00".toList "09".toList := by
      decide
    have h2 := pyTrunc_nonneg (mul_nonneg
      (by exact_mod_cast h1 :
        (0:ℚ) ≤ ((specWholeSeconds none "00".toList "09".toList : Int) : ℚ))
      (by norm_num : (0:ℚ) ≤ 30))
    have h3 : (0 : Int) ≤ specFF (some "15".toList) := by decide
    omega
  have hseek : seekIndex videoSampleZero tsSample = some (-1) := by
    unfold seekIndex tsSample
    rw [show videoSampleZero.fps = (30 : ℚ) from rfl, hfi]
    simp only [Option.map_some']
    rw [if_pos (by exact hnn)]
    rfl
  obtain ⟨hle, him⟩ := claim_C10_seek_clamped videoSampleZero tsSample (-1) hseek
  exact ⟨-1, hseek, hle, rfl⟩

theorem extractAux_eq (v : Video) (outdir : List Char)
    (ts : List (List Char)) (hsh : ∀ t ∈ ts, specTimestampShape t) :
    ∀ i, extractVideoFramesAux v outdir i ts =
      some (((List.range' i ts.length).zip ts).filterMap fun p =>
        match seekIndex v p.2 with
        | none => none
        | some f =>
          if v.readOk f then
            some (pathJoin outdir (evidenceFileName p.1 p.2 f))
          else none) := by
  induction ts with
  | nil => intro i; simp [extractVideoFramesAux]
  | cons t ts ih =>
    intro i
    have hts : ∃ f, seekIndex v t = some f := by
      obtain ⟨fi, hfi, -⟩ := frameInfo_of_shape (hsh t (by simp)) v.fps
      refine ⟨if v.total_frames ≤ fi.exact_frame then v.total_frames - 1
        else fi.exact_frame, ?_⟩
      simp [seekIndex, hfi]
    obtain ⟨f, hf⟩ := hts
    simp only [extractVideoFramesAux, hf]
    rw [ih (fun x hx => hsh x (by simp [hx])) (i + 1)]
    simp only [List.length_cons, List.range'_succ, List.zip_cons_cons,
      List.filterMap_cons, hf]
    cases hro : v.readOk f <;> simp

/-- C5: for a video that opens, `_extract_video_frames` on a list of
extracted (pattern-shaped) timestamps returns one file path per timestamp
whose frame read succeeds, in timestamp order, each of the form
`<output_dir>/evidence_<i+1>_<timestamp with ':' replaced by '-' and '.' by
'_'>_frame<n>.jpg`; for an empty timestamp list or a video that fails to
open it returns the empty list. -/
theorem claim_C5_extract_frames (v : Video) (ts : List (List Char))
    (outdir : List Char) :
    (ts = [] → extractVideoFrames v ts outdir = some []) ∧
    (v.openedOk = false → extractVideoFrames v ts outdir = some []) ∧
    (v.openedOk = true → (∀ t ∈ ts, specTimestampShape t) →
      extractVideoFrames v ts outdir =
        some (specEvidencePaths v outdir ts)) := by
  refine ⟨fun h => by simp [extractVideoFrames, h], fun h => ?_, fun ho hsh => ?_⟩
  · unfold extractVideoFrames
    rw [h]
    split <;> simp
  · unfold extractVideoFrames
    by_cases hts : ts = []
    · subst hts
      simp [specEvidencePaths]
    · rw [if_neg hts, if_pos (by rw [ho])]
      rw [extractAux_eq v outdir ts hsh 0]
      unfold specEvidencePaths
      rw [List.range_eq_range']
      rfl

/-- Witness for C5: extracting the single shaped timestamp `00:09.15` from
an open video yields exactly the spec-side evidence path list. -/
theorem claim_C5_witness :
    extractVideoFrames videoSample [tsSample] "screenshots".toList =
      some (specEvidencePaths videoSample "screenshots".toList [tsSample]) := by
  refine (claim_C5_extract_frames videoSample [tsSample]
    "screenshots".toList).2.2 rfl ?_
  intro t ht
  rw [List.mem_singleton.mp ht]
  exact tsSample_shape

theorem lowerList_length_eq {a b : List Char} (h : lowerList a = lowerList b) :
    a.length = b.length := by
  have := congrArg List.length h
  simpa [lowerList] using this

theorem startsWithCI_iff (pat : List Char) : ∀ l : List Char,
    (startsWithCI pat l = true ↔
      ∃ m r, l = m ++ r ∧ lowerList m = lowerList pat) := by
  induction pat with
  | nil =>
    intro l
    simp only [startsWithCI]
    constructor
    · intro _
      exact ⟨[], l, rfl, rfl⟩
    · intro _
      trivial
  | cons p ps ih =>
    intro l
    cases l with
    | nil =>
      simp only [startsWithCI]
      constructor
      · intro h
        exact absurd h (by simp)
      · rintro ⟨m, r, hl, hm⟩
        have := lowerList_length_eq hm
        have hm0 : m = [] := List.length_eq_zero.mp
          (by
            have := congrArg List.length hl
            simp at this
            omega)
        rw [hm0] at this
        simp at this
    | cons c cs =>
      simp only [startsWithCI, Bool.and_eq_true, decide_eq_true_eq]
      constructor
      · rintro ⟨hpc, hrest⟩
        obtain ⟨m, r, hcs, hm⟩ := (ih cs).mp hrest
        refine ⟨c :: m, r, by rw [hcs]; rfl, ?_⟩
        simp only [lowerList, List.map_cons] at hm ⊢
        rw [hm, hpc]
      · rintro ⟨m, r, hl, hm⟩
        cases m with
        | nil =>
          exact absurd (lowerList_length_eq hm) (by simp)
        | cons x m' =>
          simp only [List.cons_append, List.cons.injEq] at hl
          obtain ⟨rfl, hcs⟩ := hl
          simp only [lowerList, List.map_cons, List.cons.injEq] at hm
          exact ⟨hm.1.symm, (ih cs).mpr ⟨m', r, hcs, hm.2⟩⟩

theorem dropWhile_all_append {p : Char → Bool} {ws : List Char}
    (rest : List Char) (h : ∀ c ∈ ws, p c = true) :
    (ws ++ rest).dropWhile p = rest.dropWhile p := by
  induction ws with
  | nil => rfl
  | cons c cs ih =>
    rw [List.cons_append, List.dropWhile_cons_of_pos (h c (by simp))]
    exact ih (fun x hx => h x (by simp [hx]))

theorem takeWhile_all_append_neg {p : Char → Bool} {ds : List Char}
    {x : Char} (rest : List Char) (hd : ∀ c ∈ ds, p c = true)
    (hx : p x = false) : (ds ++ x :: rest).takeWhile p = ds := by
  induction ds with
  | nil =>
    rw [List.nil_append, List.takeWhile_cons_of_neg]
    rw [hx]
    exact Bool.false_ne_true
  | cons c cs ih =>
    rw [List.cons_append, List.takeWhile_cons_of_pos (hd c (by simp))]
    rw [ih (fun y hy => hd y (by simp [hy]))]

theorem drop_takeWhile_length (p : Char → Bool) (r : List Char) :
    r.drop (r.takeWhile p).length = r.dropWhile p := by
  calc r.drop (r.takeWhile p).length
      = (r.takeWhile p ++ r.dropWhile p).drop (r.takeWhile p).length := by
        rw [List.takeWhile_append_dropWhile]
    _ = r.dropWhile p := List.drop_left _ _

theorem mem_takeWhile_sat {p : Char → Bool} {r : List Char} {c : Char}
    (h : c ∈ r.takeWhile p) : p c = true := by
  induction r with
  | nil => simp at h
  | cons x xs ih =>
    by_cases hx : p x = true
    · rw [List.takeWhile_cons_of_pos hx] at h
      rcases List.mem_cons.mp h with rfl | h2
      · exact hx
      · exact ih h2
    · rw [List.takeWhile_cons_of_neg (by simpa using hx)] at h
      simp at h

theorem matchScoreAt_iff (marker l : List Char) (n : Nat) :
    matchScoreAt marker l = some n ↔ specScoreMatch marker n l := by
  constructor
  · intro h
    unfold matchScoreAt at h
    by_cases hsw : startsWithCI marker l = true
    swap
    · rw [if_neg hsw] at h
      exact absurd h (by simp)
    rw [if_pos hsw] at h
    obtain ⟨m, r0, hl, hm⟩ := (startsWithCI_iff marker l).mp hsw
    have hlen : marker.length = m.length := (lowerList_length_eq hm).symm
    rw [hl, hlen, List.drop_left] at h
    set rd := dropPySpaces r0 with hrd
    set ds := rd.takeWhile Char.isDigit with hds
    by_cases hne : ds = []
    · rw [if_pos hne] at h
      exact absurd h (by simp)
    rw [if_neg hne] at h
    have hdrop : rd.drop ds.length = rd.dropWhile Char.isDigit := by
      rw [hds]
      exact drop_takeWhile_length Char.isDigit rd
    rw [hdrop] at h
    cases hdw : rd.dropWhile Char.isDigit with
    | nil => rw [hdw] at h; exact absurd h (by simp)
    | cons x xs =>
      rw [hdw] at h
      by_cases hx : x = '/'
      swap
      · exfalso
        revert h
        cases x <;> simp_all [matchScoreAt]
      subst hx
      cases xs with
      | nil => exact absurd h (by simp)
      | cons y ys =>
        by_cases hy : y = '1'
        swap
        · exfalso
          revert h
          cases y <;> simp_all
        subst hy
        cases ys with
        | nil => exact absurd h (by simp)
        | cons z zs =>
          by_cases hz : z = '0'
          swap
          · exfalso
            revert h
            cases z <;> simp_all
          subst hz
          simp only [Option.some.injEq] at h
          set ws0 := r0.takeWhile isPySpace with hws0
          refine ⟨m, ws0, ds, zs, ?_, hm, ?_, hne, ?_, h⟩
          · have h1 : r0 = ws0 ++ rd := by
              rw [hws0, hrd]
              unfold dropPySpaces
              exact (List.takeWhile_append_dropWhile _ _).symm
            have h2 : rd = ds ++ '/' :: '1' :: '0' :: zs := by
              calc rd = rd.takeWhile Char.isDigit ++ rd.dropWhile Char.isDigit :=
                    (List.takeWhile_append_dropWhile _ _).symm
                _ = ds ++ '/' :: '1' :: '0' :: zs := by rw [← hds, hdw]
            rw [hl, h1, h2]
            simp [List.append_assoc]
          · intro c hc
            rw [hws0] at hc
            exact mem_takeWhile_sat hc
          · intro c hc
            rw [hds] at hc
            exact mem_takeWhile_sat hc
  · rintro ⟨m, ws, ds, suf, hl, hm, hws, hne, hd, hn⟩
    have hassoc : l = m ++ (ws ++ (ds ++ '/' :: '1' :: '0' :: suf)) := by
      rw [hl]
      simp [List.append_assoc]
    have hlen : marker.length = m.length := (lowerList_length_eq hm).symm
    unfold matchScoreAt
    rw [if_pos ((startsWithCI_iff marker l).mpr
      ⟨m, ws ++ (ds ++ '/' :: '1' :: '0' :: suf), hassoc, hm⟩)]
    have hdrop : l.drop marker.length = ws ++ (ds ++ '/' :: '1' :: '0' :: suf) := by
      rw [hassoc, hlen, List.drop_left]
    rw [hdrop]
    have hds0 : dropPySpaces (ws ++ (ds ++ '/' :: '1' :: '0' :: suf)) =
        ds ++ '/' :: '1' :: '0' :: suf := by
      unfold dropPySpaces
      rw [dropWhile_all_append _ hws]
      obtain ⟨d, ds', rfl⟩ : ∃ d ds', ds = d :: ds' := by
        cases ds with
        | nil => exact absurd rfl hne
        | cons d ds' => exact ⟨d, ds', rfl⟩
      rw [List.cons_append, List.dropWhile_cons_of_neg]
      rw [isPySpace_eq_false_of_isDigit (hd d (by simp))]
      exact Bool.false_ne_true
    rw [hds0]
    dsimp only
    rw [takeWhile_all_append_neg ('1' :: '0' :: suf) hd (by decide)]
    rw [if_neg hne]
    rw [List.drop_left]
    show some (natOfDigits ds) = some n
    rw [hn]

theorem matchScoreAt_none_iff (marker l : List Char) :
    matchScoreAt marker l = none ↔ ∀ k, ¬ specScoreMatch marker k l := by
  cases h : matchScoreAt marker l with
  | none =>
    simp only [true_iff]
    intro k hk
    have := (matchScoreAt_iff marker l k).mpr hk
    rw [h] at this
    exact Option.noConfusion this
  | some k =>
    constructor
    · intro habs
      exact absurd habs (by simp)
    · intro hall
      exact absurd ((matchScoreAt_iff marker l k).mp h) (hall k)

theorem searchScore_none_iff (marker : List Char) : ∀ text : List Char,
    (searchScore marker text = none ↔
      ∀ i, matchScoreAt marker (text.drop i) = none) := by
  intro text
  induction text with
  | nil =>
    simp only [searchScore]
    constructor
    · intro h i
      rw [List.drop_nil]
      exact h
    · intro h
      have := h 0
      rwa [List.drop_nil] at this
  | cons c cs ih =>
    simp only [searchScore]
    cases hm : matchScoreAt marker (c :: cs) with
    | some k =>
      constructor
      · intro h
        exact absurd h (by simp)
      · intro h
        have := h 0
        rw [List.drop_zero, hm] at this
        exact Option.noConfusion this
    | none =>
      rw [ih]
      constructor
      · intro h i
        cases i with
        | zero => rwa [List.drop_zero]
        | succ j =>
          rw [List.drop_succ_cons]
          exact h j
      · intro h i
        have := h (i + 1)
        rwa [List.drop_succ_cons] at this

theorem searchScore_some_iff (marker : List Char) : ∀ (text : List Char)
    (n : Nat), (searchScore marker text = some n ↔
      ∃ i, matchScoreAt marker (text.drop i) = some n ∧
        ∀ j < i, matchScoreAt marker (text.drop j) = none) := by
  intro text
  induction text with
  | nil =>
    intro n
    simp only [searchScore]
    constructor
    · intro h
      exact ⟨0, by rwa [List.drop_nil], by omega⟩
    · rintro ⟨i, hi, -⟩
      rwa [List.drop_nil] at hi
  | cons c cs ih =>
    intro n
    simp only [searchScore]
    cases hm : matchScoreAt marker (c :: cs) with
    | some k =>
      constructor
      · intro h
        refine ⟨0, ?_, by omega⟩
        rw [List.drop_zero, hm]
        exact h
      · rintro ⟨i, hi, hj⟩
        cases i with
        | zero =>
          rw [List.drop_zero, hm] at hi
          exact hi
        | succ m =>
          have := hj 0 (by omega)
          rw [List.drop_zero, hm] at this
          exact Option.noConfusion this
    | none =>
      rw [ih n]
      constructor
      · rintro ⟨i, hi, hj⟩
        refine ⟨i + 1, by rwa [List.drop_succ_cons], ?_⟩
        intro j hji
        cases j with
        | zero => rwa [List.drop_zero]
        | succ jm =>
          rw [List.drop_succ_cons]
          exact hj jm (by omega)
      · rintro ⟨i, hi, hj⟩
        cases i with
        | zero =>
          rw [List.drop_zero, hm] at hi
          exact Option.noConfusion hi
        | succ m =>
          rw [List.drop_succ_cons] at hi
          refine ⟨m, hi, fun j hjm => ?_⟩
          have := hj (j + 1) (by omega)
          rwa [List.drop_succ_cons] at this

theorem searchScore_leftmost_iff (marker text : List Char) (n : Nat) :
    searchScore marker text = some n ↔ specScoreLeftmost marker n text := by
  rw [searchScore_some_iff]
  unfold specScoreLeftmost specScoreOccursAt
  constructor
  · rintro ⟨i, hi, hj⟩
    refine ⟨i, (matchScoreAt_iff _ _ _).mp hi, fun j hji k hk => ?_⟩
    have := (matchScoreAt_iff marker (text.drop j) k).mpr hk
    rw [hj j hji] at this
    exact Option.noConfusion this
  · rintro ⟨i, hi, hj⟩
    refine ⟨i, (matchScoreAt_iff _ _ _).mpr hi, fun j hji => ?_⟩
    rw [matchScoreAt_none_iff]
    exact fun k => hj j hji k

theorem searchScore_allnone_iff (marker text : List Char) :
    searchScore marker text = none ↔
      ∀ i k, ¬ specScoreOccursAt marker k text i := by
  rw [searchScore_none_iff]
  unfold specScoreOccursAt
  constructor
  · intro h i
    rw [← matchScoreAt_none_iff]
    exact h i
  · intro h i
    rw [matchScoreAt_none_iff]
    exact h i

theorem firstScore_two_iff (zh en text : List Char) (n : Nat) :
    firstScore [zh, en] text = some n ↔ specScoreFirst zh en n text := by
  unfold firstScore specScoreFirst
  cases hzh : searchScore zh text with
  | some m =>
    constructor
    · intro h
      exact Or.inl ((searchScore_leftmost_iff zh text n).mp (by rw [hzh]; exact h))
    · rintro (h | ⟨hno, -⟩)
      · have := (searchScore_leftmost_iff zh text n).mpr h
        rw [hzh] at this
        exact this
      · exfalso
        have := (searchScore_allnone_iff zh text).mpr hno
        rw [hzh] at this
        exact Option.noConfusion this
  | none =>
    have hno : ∀ i k, ¬ specScoreOccursAt zh k text i :=
      (searchScore_allnone_iff zh text).mp hzh
    show firstScore [en] text = some n ↔ _
    have hone : firstScore [en] text = searchScore en text := by
      unfold firstScore
      cases hen : searchScore en text <;> rfl
    rw [hone]
    constructor
    · intro h
      exact Or.inr ⟨hno, (searchScore_leftmost_iff en text n).mp h⟩
    · rintro (h | ⟨-, h⟩)
      · exfalso
        have := (searchScore_leftmost_iff zh text n).mpr h
        rw [hzh] at this
        exact Option.noConfusion this
      · exact (searchScore_leftmost_iff en text n).mpr h

/-- C4: `_extract_analysis_data_from_response` sets `liveness_score` to N
exactly when the text contains `活体检测评分: N/10` or, failing that
entirely, `LIVENESS_SCORE: N/10` (case-insensitive, the leftmost match
winning); analogously for `biometric_score` with its two markers; and
`spoofing_risk_score` has only the single Chinese marker with no English
fallback. -/
theorem claim_C4_scores (text : List Char) (n : Nat) :
    ((extractAnalysisData text).liveness_score = some n ↔
      specScoreFirst zhLivenessMarker enLivenessMarker n text) ∧
    ((extractAnalysisData text).biometric_score = some n ↔
      specScoreFirst zhBiometricMarker enBiometricMarker n text) ∧
    ((extractAnalysisData text).spoofing_risk_score = some n ↔
      specScoreLeftmost zhSpoofingMarker n text) :=
  ⟨firstScore_two_iff _ _ text n, firstScore_two_iff _ _ text n,
    searchScore_leftmost_iff _ text n⟩

/-- Witness for C4: in a text containing `活体检测评分: 7/10` the extracted
liveness score is 7 and the spec-side occurrence predicate holds. -/
theorem claim_C4_witness :
    specScoreFirst zhLivenessMarker enLivenessMarker 7
      "前言 活体检测评分: 7/10 后记".toList :=
  (claim_C4_scores "前言 活体检测评分: 7/10 后记".toList 7).1.mp (by decide)

/-- Witness for C6 (amended): with 2 screenshots the first screenshot is
pasted within the canvas bounds. -/
theorem claim_C6_witness :
    shotX 2 0 + imgWidth ≤ canvasWidth 2 :=
  (claim_C6_layout 2 0 (by norm_num) (by norm_num)).2.2.2.1 (by decide)

theorem takeUntilRBracket_some {r g : List Char}
    (h : takeUntilRBracket r = some g) :
    ∃ suf, r = g ++ ']' :: suf ∧ '\n' ∉ g ∧ ']' ∉ g := by
  induction r generalizing g with
  | nil => exact absurd h (by simp [takeUntilRBracket])
  | cons c cs ih =>
    unfold takeUntilRBracket at h
    by_cases hc : c = ']'
    · subst hc
      rw [if_pos rfl] at h
      obtain rfl : g = [] := (Option.some.inj h).symm
      exact ⟨cs, rfl, by simp, by simp⟩
    · rw [if_neg hc] at h
      by_cases hn : c = '\n'
      · rw [if_pos hn] at h
        exact absurd h (by simp)
      · rw [if_neg hn] at h
        rcases Option.map_eq_some'.mp h with ⟨g', hg', rfl⟩
        obtain ⟨suf, hcs, hmem, hmb⟩ := ih hg'
        refine ⟨suf, by rw [hcs]; rfl, ?_, ?_⟩
        · intro hmem2
          rcases List.mem_cons.mp hmem2 with he | he
          · exact hn he.symm
          · exact hmem he
        · intro hmem2
          rcases List.mem_cons.mp hmem2 with he | he
          · exact hc he.symm
          · exact hmb he

theorem takeUntilRBracket_of_decomp {mid : List Char} (suf : List Char)
    (h : '\n' ∉ mid) :
    ∃ g, takeUntilRBracket (mid ++ ']' :: suf) = some g := by
  induction mid with
  | nil => exact ⟨[], by simp [takeUntilRBracket]⟩
  | cons c cs ih =>
    have hcn : c ≠ '\n' := fun he => h (by rw [he]; simp)
    obtain ⟨g, hg⟩ := ih (fun hm => h (by simp [hm]))
    by_cases hc : c = ']'
    · exact ⟨[], by subst hc; simp [takeUntilRBracket]⟩
    · refine ⟨c :: g, ?_⟩
      rw [List.cons_append]
      unfold takeUntilRBracket
      rw [if_neg hc, if_neg hcn, hg]
      rfl

theorem matchMarkerAt_some_iff (marker l : List Char) :
    (∃ g, matchMarkerAt marker l = some g) ↔
      ∃ m ws mid suf, l = m ++ ws ++ '[' :: (mid ++ ']' :: suf) ∧
        lowerList m = lowerList marker ∧
        (∀ c ∈ ws, isPySpace c = true) ∧ '\n' ∉ mid := by
  constructor
  · rintro ⟨g, h⟩
    unfold matchMarkerAt at h
    by_cases hsw : startsWithCI marker l = true
    swap
    · rw [if_neg hsw] at h
      exact absurd h (by simp)
    rw [if_pos hsw] at h
    obtain ⟨m, r0, hl, hm⟩ := (startsWithCI_iff marker l).mp hsw
    have hlen : marker.length = m.length := (lowerList_length_eq hm).symm
    rw [hl, hlen, List.drop_left] at h
    cases hdw : dropPySpaces r0 with
    | nil => rw [hdw] at h; exact absurd h (by simp)
    | cons x rest =>
      rw [hdw] at h
      by_cases hx : x = '['
      swap
      · exfalso
        revert h
        cases x <;> simp_all
      subst hx
      have hto : takeUntilRBracket rest = some g := h
      obtain ⟨suf, hrest, hmem, -⟩ := takeUntilRBracket_some hto
      set ws0 := r0.takeWhile isPySpace with hws0
      refine ⟨m, ws0, g, suf, ?_, hm, ?_, hmem⟩
      · have h1 : r0 = ws0 ++ ('[' :: rest) := by
          rw [hws0, ← hdw]
          unfold dropPySpaces
          exact (List.takeWhile_append_dropWhile _ _).symm

        rw [hl, h1, hrest]
        simp [List.append_assoc]
      · intro c hc
        rw [hws0] at hc
        exact mem_takeWhile_sat hc
  · rintro ⟨m, ws, mid, suf, hl, hm, hws, hmem⟩
    have hassoc : l = m ++ (ws ++ '[' :: (mid ++ ']' :: suf)) := by
      rw [hl]
      simp [List.append_assoc]
    have hlen : marker.length = m.length := (lowerList_length_eq hm).symm
    obtain ⟨g, hg⟩ := takeUntilRBracket_of_decomp suf hmem
    refine ⟨g, ?_⟩
    unfold matchMarkerAt
    rw [if_pos ((startsWithCI_iff marker l).mpr
      ⟨m, ws ++ '[' :: (mid ++ ']' :: suf), hassoc, hm⟩)]
    have hdrop : l.drop marker.length = ws ++ '[' :: (mid ++ ']' :: suf) := by
      rw [hassoc, hlen, List.drop_left]
    rw [hdrop]
    have hds0 : dropPySpaces (ws ++ '[' :: (mid ++ ']' :: suf)) =
        '[' :: (mid ++ ']' :: suf) := by
      unfold dropPySpaces
      rw [dropWhile_all_append _ hws]
      rw [List.dropWhile_cons_of_neg (by simp [isPySpace])]
    rw [hds0]
    exact hg

theorem searchMarker_none_iff (marker : List Char) : ∀ text : List Char,
    (searchMarker marker text = none ↔
      ∀ i, matchMarkerAt marker (text.drop i) = none) := by
  intro text
  induction text with
  | nil =>
    simp only [searchMarker]
    constructor
    · intro h i
      rw [List.drop_nil]
      exact h
    · intro h
      have := h 0
      rwa [List.drop_nil] at this
  | cons c cs ih =>
    simp only [searchMarker]
    cases hm : matchMarkerAt marker (c :: cs) with
    | some g =>
      constructor
      · intro h
        exact absurd h (by simp)
      · intro h
        have := h 0
        rw [List.drop_zero, hm] at this
        exact Option.noConfusion this
    | none =>
      rw [ih]
      constructor
      · intro h i
        cases i with
        | zero => rwa [List.drop_zero]
        | succ j =>
          rw [List.drop_succ_cons]
          exact h j
      · intro h i
        have := h (i + 1)
        rwa [List.drop_succ_cons] at this

theorem markerBracketOccurs_iff (marker text : List Char) :
    markerBracketOccurs marker text ↔
      ∃ i g, matchMarkerAt marker (text.drop i) = some g := by
  constructor
  · rintro ⟨pre, m, ws, mid, suf, ht, hm, hws, hmem⟩
    refine ⟨pre.length, ?_⟩
    have hdrop : text.drop pre.length =
        m ++ ws ++ '[' :: (mid ++ ']' :: suf) := by
      rw [ht, show pre ++ m ++ ws ++ '[' :: (mid ++ ']' :: suf) =
        pre ++ (m ++ ws ++ '[' :: (mid ++ ']' :: suf)) from by
          simp [List.append_assoc], List.drop_left]
    rw [hdrop]
    exact (matchMarkerAt_some_iff marker _).mpr ⟨m, ws, mid, suf, rfl, hm, hws, hmem⟩
  · rintro ⟨i, g, hg⟩
    obtain ⟨m, ws, mid, suf, hdec, hm, hws, hmem⟩ :=
      (matchMarkerAt_some_iff marker (text.drop i)).mp ⟨g, hg⟩
    refine ⟨text.take i, m, ws, mid, suf, ?_, hm, hws, hmem⟩
    rw [show text.take i ++ m ++ ws ++ '[' :: (mid ++ ']' :: suf) =
      text.take i ++ (m ++ ws ++ '[' :: (mid ++ ']' :: suf)) from by
        simp [List.append_assoc], ← hdec, List.take_append_drop]

theorem searchMarker_none_iff_not_occurs (marker text : List Char) :
    searchMarker marker text = none ↔ ¬ markerBracketOccurs marker text := by
  rw [searchMarker_none_iff, markerBracketOccurs_iff]
  constructor
  · rintro h ⟨i, g, hg⟩
    rw [h i] at hg
    exact Option.noConfusion hg
  · intro h i
    cases hmi : matchMarkerAt marker (text.drop i) with
    | none => rfl
    | some g => exact absurd ⟨i, g, hmi⟩ h

theorem matchOptColonDigits_split (l : List Char) :
    (matchOptColonDigits l).1 ++ (matchOptColonDigits l).2 = l := by
  unfold matchOptColonDigits
  split
  · split <;> simp
  · simp

theorem matchOptFrac_split (l : List Char) :
    (matchOptFrac l).1 ++ (matchOptFrac l).2 = l := by
  unfold matchOptFrac
  split
  · split
    · split <;> simp
    · simp
  · split <;> simp
  · simp

theorem matchOptColonDigits_shape (l : List Char) :
    (matchOptColonDigits l).1 = [] ∨
      ∃ s2, (matchOptColonDigits l).1 = ':' :: s2 ∧ twoDigits s2 = true := by
  unfold matchOptColonDigits
  split
  · rename_i d1 d2 rest
    split
    · rename_i hd
      exact Or.inr ⟨[d1, d2], rfl, by simpa [twoDigits] using hd⟩
    · exact Or.inl rfl
  · exact Or.inl rfl

theorem matchOptFrac_shape (l : List Char) :
    (matchOptFrac l).1 = [] ∨
      ∃ fr, (matchOptFrac l).1 = '.' :: fr ∧ oneOrTwoDigits fr = true := by
  unfold matchOptFrac
  split
  case h_1 x d1 d2 rest =>
    split
    · rename_i hd1
      split
      · rename_i hd2
        exact Or.inr ⟨[d1, d2], rfl, by simp [oneOrTwoDigits, hd1, hd2]⟩
      · exact Or.inr ⟨[d1], rfl, by simpa [oneOrTwoDigits] using hd1⟩
    · exact Or.inl rfl
  case h_2 x d1 rest hne =>
    split
    · rename_i hd1
      exact Or.inr ⟨[d1], rfl, by simpa [oneOrTwoDigits] using hd1⟩
    · exact Or.inl rfl
  case h_3 => exact Or.inl rfl

theorem matchTail_some {l m r : List Char} (h : matchTail l = some (m, r)) :
    l = m ++ r ∧
    ∃ d1 d2 oss off, m = d1 :: d2 :: (oss ++ off) ∧
      d1.isDigit = true ∧ d2.isDigit = true ∧
      (oss = [] ∨ ∃ s2, oss = ':' :: s2 ∧ twoDigits s2 = true) ∧
      (off = [] ∨ ∃ fr, off = '.' :: fr ∧ oneOrTwoDigits fr = true) := by
  unfold matchTail at h
  split at h
  case h_2 => exact absurd h (by simp)
  case h_1 d1 d2 rest =>
    split at h
    case isFalse => exact absurd h (by simp)
    case isTrue hd =>
      simp only [Option.some.injEq, Prod.mk.injEq] at h
      obtain ⟨hm, hr⟩ := h
      simp only [Bool.and_eq_true] at hd
      constructor
      · rw [← hm, ← hr]
        simp only [List.cons_append, List.cons.injEq, true_and]
        rw [List.append_assoc, matchOptFrac_split, matchOptColonDigits_split]
      · exact ⟨d1, d2, _, _, hm.symm, hd.1, hd.2,
          matchOptColonDigits_shape rest,
          matchOptFrac_shape (matchOptColonDigits rest).2⟩

theorem matchTimestampAt_split_shape {l : List Char}
    {p : List Char × List Char} (h : matchTimestampAt l = some p) :
    l = p.1 ++ p.2 ∧ specTimestampShape p.1 := by
  unfold matchTimestampAt at h
  split at h
  case h_2 => exact absurd h (by simp)
  case h_1 a b c rest =>
    split at h
    case isTrue hcond =>
      rcases Option.map_eq_some'.mp h with ⟨⟨m, r⟩, hmt, heq⟩
      obtain ⟨hsplit, d1, d2, oss, off, hm, hd1, hd2, hoss, hoff⟩ :=
        matchTail_some hmt
      simp only [Bool.and_eq_true, decide_eq_true_eq] at hcond
      obtain ⟨⟨ha, hb⟩, rfl⟩ := hcond
      rw [← heq]
      constructor
      · simp only [List.cons_append, List.cons.injEq, true_and]
        exact hsplit
      · refine ⟨[a, b], [d1, d2], oss, off, ?_, by simp [oneOrTwoDigits, ha, hb],
          by simp [twoDigits, hd1, hd2], hoss, hoff⟩
        rw [hm]
        simp [List.append_assoc]
    case isFalse =>
      split at h
      case isFalse => exact absurd h (by simp)
      case isTrue hcond =>
        rcases Option.map_eq_some'.mp h with ⟨⟨m, r⟩, hmt, heq⟩
        obtain ⟨hsplit, d1, d2, oss, off, hm, hd1, hd2, hoss, hoff⟩ :=
          matchTail_some hmt
        simp only [Bool.and_eq_true, decide_eq_true_eq] at hcond
        obtain ⟨ha, rfl⟩ := hcond
        rw [← heq]
        constructor
        · simp only [List.cons_append, List.cons.injEq, true_and]
          exact hsplit
        · refine ⟨[a], [d1, d2], oss, off, ?_,
            by simp [oneOrTwoDigits, ha],
            by simp [twoDigits, hd1, hd2], hoss, hoff⟩
          rw [hm]
          simp [List.append_assoc]

theorem twoDigits_cases {l : List Char} (h : twoDigits l = true) :
    ∃ d1 d2, l = [d1, d2] ∧ d1.isDigit = true ∧ d2.isDigit = true := by
  cases l with
  | nil => simp [twoDigits] at h
  | cons a t =>
    cases t with
    | nil => simp [twoDigits] at h
    | cons b t2 =>
      cases t2 with
      | nil =>
        simp only [twoDigits, Bool.and_eq_true] at h
        exact ⟨a, b, rfl, h.1, h.2⟩
      | cons d t3 => simp [twoDigits] at h

theorem oneOrTwoDigits_cases {l : List Char} (h : oneOrTwoDigits l = true) :
    (∃ a, l = [a] ∧ a.isDigit = true) ∨
      (∃ a b, l = [a, b] ∧ a.isDigit = true ∧ b.isDigit = true) := by
  cases l with
  | nil => simp [oneOrTwoDigits] at h
  | cons a t =>
    cases t with
    | nil => exact Or.inl ⟨a, rfl, by simpa [oneOrTwoDigits] using h⟩
    | cons b t2 =>
      cases t2 with
      | nil =>
        simp only [oneOrTwoDigits, Bool.and_eq_true] at h
        exact Or.inr ⟨a, b, rfl, h.1, h.2⟩
      | cons d t3 => simp [oneOrTwoDigits] at h

theorem matchTail_of_digits {d1 d2 : Char} (rest : List Char)
    (h1 : d1.isDigit = true) (h2 : d2.isDigit = true) :
    ∃ q, matchTail (d1 :: d2 :: rest) = some q := by
  have h : matchTail (d1 :: d2 :: rest) =
      some (d1 :: d2 :: ((matchOptColonDigits rest).1 ++
        (matchOptFrac (matchOptColonDigits rest).2).1),
        (matchOptFrac (matchOptColonDigits rest).2).2) := by
    show (if (d1.isDigit && d2.isDigit) = true then
        some (d1 :: d2 :: ((matchOptColonDigits rest).1 ++
          (matchOptFrac (matchOptColonDigits rest).2).1),
          (matchOptFrac (matchOptColonDigits rest).2).2)
      else none) = _
    rw [if_pos (by simp [h1, h2])]
  exact ⟨_, h⟩

theorem matchTimestampAt_of_shape {t : List Char}
    (h : specTimestampShape t) (r : List Char) :
    ∃ p, matchTimestampAt (t ++ r) = some p := by
  obtain ⟨mm, ss, oss, off, rfl, h1, h2, -, -⟩ := h
  obtain ⟨d1, d2, rfl, hd1, hd2⟩ := twoDigits_cases h2
  rcases oneOrTwoDigits_cases h1 with ⟨a, rfl, ha⟩ | ⟨a, b, rfl, ha, hb⟩
  · have hshow : ([a] ++ ':' :: [d1, d2] ++ oss ++ off) ++ r =
        a :: ':' :: d1 :: d2 :: (oss ++ (off ++ r)) := by
      simp [List.append_assoc]
    rw [hshow]
    obtain ⟨q, hq⟩ := matchTail_of_digits (oss ++ (off ++ r)) hd1 hd2
    refine ⟨(a :: ':' :: q.1, q.2), ?_⟩
    show (if (a.isDigit && (':' : Char).isDigit && decide (d1 = ':')) = true then
        Option.map (fun p => (a :: ':' :: d1 :: p.1, p.2))
          (matchTail (d2 :: (oss ++ (off ++ r))))
      else if (a.isDigit && decide ((':' : Char) = ':')) = true then
        Option.map (fun p => (a :: ':' :: p.1, p.2))
          (matchTail (d1 :: d2 :: (oss ++ (off ++ r))))
      else none) = _
    rw [if_neg (by simp), if_pos (by simp [ha]), hq]
    rfl
  · have hshow : ([a, b] ++ ':' :: [d1, d2] ++ oss ++ off) ++ r =
        a :: b :: ':' :: (d1 :: d2 :: (oss ++ (off ++ r))) := by
      simp [List.append_assoc]
    rw [hshow]
    obtain ⟨q, hq⟩ := matchTail_of_digits (oss ++ (off ++ r)) hd1 hd2
    refine ⟨(a :: b :: ':' :: q.1, q.2), ?_⟩
    show (if (a.isDigit && b.isDigit && decide ((':' : Char) = ':')) = true then
        Option.map (fun p => (a :: b :: ':' :: p.1, p.2))
          (matchTail (d1 :: d2 :: (oss ++ (off ++ r))))
      else if (a.isDigit && decide (b = ':')) = true then
        Option.map (fun p => (a :: b :: p.1, p.2))
          (matchTail (':' :: (d1 :: d2 :: (oss ++ (off ++ r)))))
      else none) = _
    rw [if_pos (by simp [ha, hb]), hq]
    rfl

theorem ChainedIn_cons_left {ts : List (List Char)} {g : List Char} (c : Char)
    (h : ChainedIn ts g) : ChainedIn ts (c :: g) := by
  cases h with
  | nil => exact ChainedIn.nil _
  | cons pre t ts2 rest h2 =>
    have := ChainedIn.cons (c :: pre) t ts2 rest h2
    simpa using this

theorem findAll_chained : ∀ n (g : List Char), g.length ≤ n →
    ChainedIn (findAllTimestamps g) g := by
  intro n
  induction n with
  | zero =>
    intro g hg
    have : g = [] := List.length_eq_zero.mp (Nat.le_zero.mp hg)
    subst this
    exact ChainedIn.nil _
  | succ n ih =>
    intro g hg
    cases g with
    | nil => exact ChainedIn.nil _
    | cons c cs =>
      rw [findAllTimestamps_cons]
      cases hm : matchTimestampAt (c :: cs) with
      | some p =>
        dsimp only
        obtain ⟨hsplit, hshape⟩ := matchTimestampAt_split_shape hm
        have hlen := matchTimestampAt_length hm
        have hch := ih p.2 (by
          simp only [List.length_cons] at hg hlen
          omega)
        have hcons := ChainedIn.cons [] p.1 _ p.2 hch
        rw [hsplit]
        simpa using hcons
      | none =>
        dsimp only
        exact ChainedIn_cons_left c (ih cs (by
          simp only [List.length_cons] at hg
          omega))

theorem findAll_members_shape : ∀ n (g : List Char), g.length ≤ n →
    ∀ t ∈ findAllTimestamps g, specTimestampShape t := by
  intro n
  induction n with
  | zero =>
    intro g hg t ht
    have : g = [] := List.length_eq_zero.mp (Nat.le_zero.mp hg)
    subst this
    have ht' : t ∈ ([] : List (List Char)) := ht
    simp at ht'
  | succ n ih =>
    intro g hg t ht
    cases g with
    | nil =>
      have ht' : t ∈ ([] : List (List Char)) := ht
      simp at ht'
    | cons c cs =>
      rw [findAllTimestamps_cons] at ht
      cases hm : matchTimestampAt (c :: cs) with
      | some p =>
        rw [hm] at ht
        have ht' : t ∈ p.1 :: findAllTimestamps p.2 := ht
        obtain ⟨hsplit, hshape⟩ := matchTimestampAt_split_shape hm
        have hlen := matchTimestampAt_length hm
        rcases List.mem_cons.mp ht' with rfl | ht2
        · exact hshape
        · exact ih p.2 (by
            simp only [List.length_cons] at hg hlen
            omega) t ht2
      | none =>
        rw [hm] at ht
        have ht' : t ∈ findAllTimestamps cs := ht
        exact ih cs (by
          simp only [List.length_cons] at hg
          omega) t ht'

theorem findAll_nil_iff : ∀ n (g : List Char), g.length ≤ n →
    (findAllTimestamps g = [] ↔
      ¬ ∃ pre t suf, g = pre ++ t ++ suf ∧ specTimestampShape t) := by
  intro n
  induction n with
  | zero =>
    intro g hg
    have : g = [] := List.length_eq_zero.mp (Nat.le_zero.mp hg)
    subst this
    apply iff_of_true rfl
    rintro ⟨pre, t, suf, hg2, hsh⟩
    obtain ⟨mm, ss, oss, off, ht, -, -, -, -⟩ := hsh
    have hlen := congrArg List.length hg2
    rw [ht] at hlen
    simp [List.length_append] at hlen
    omega
  | succ n ih =>
    intro g hg
    cases g with
    | nil =>
      apply iff_of_true rfl
      rintro ⟨pre, t, suf, hg2, hsh⟩
      obtain ⟨mm, ss, oss, off, ht, -, -, -, -⟩ := hsh
      have hlen := congrArg List.length hg2
      rw [ht] at hlen
      simp [List.length_append] at hlen
      omega
    | cons c cs =>
      rw [findAllTimestamps_cons]
      cases hm : matchTimestampAt (c :: cs) with
      | some p =>
        dsimp only
        obtain ⟨hsplit, hshape⟩ := matchTimestampAt_split_shape hm
        apply iff_of_false (by simp)
        intro hno
        exact hno ⟨[], p.1, p.2, by simpa using hsplit, hshape⟩
      | none =>
        dsimp only
        rw [ih cs (by
          simp only [List.length_cons] at hg
          omega)]
        constructor
        · rintro hno ⟨pre, t, suf, hg2, hsh⟩
          cases pre with
          | nil =>
            obtain ⟨p, hp⟩ := matchTimestampAt_of_shape hsh suf
            rw [show t ++ suf = c :: cs from by simpa using hg2.symm] at hp
            rw [hm] at hp
            exact Option.noConfusion hp
          | cons c2 pre2 =>
            simp only [List.cons_append, List.cons.injEq] at hg2
            exact hno ⟨pre2, t, suf, hg2.2, hsh⟩
        · rintro hno ⟨pre, t, suf, hg2, hsh⟩
          refine hno ⟨c :: pre, t, suf, ?_, hsh⟩
          simp only [List.cons_append]
          rw [← hg2]

theorem matchOptFrac_ge {off2 : List Char} (w : List Char)
    (hoff : off2 = [] ∨ ∃ fr, off2 = '.' :: fr ∧ oneOrTwoDigits fr = true) :
    off2.length ≤ (matchOptFrac (off2 ++ w)).1.length := by
  rcases hoff with rfl | ⟨fr, rfl, hfr⟩
  · simp
  · rcases oneOrTwoDigits_cases hfr with ⟨g1, rfl, hg1⟩ | ⟨g1, g2, rfl, hg1, hg2⟩
    · cases w with
      | nil =>
        have he : matchOptFrac (('.' :: [g1]) ++ []) = (['.', g1], []) := by
          rw [List.append_nil]
          show (if g1.isDigit = true then (['.', g1], ([] : List Char))
            else ([], ['.', g1])) = _
          rw [if_pos hg1]
        rw [he]
      | cons r0 w2 =>
        have hform : ('.' :: [g1]) ++ (r0 :: w2) = '.' :: g1 :: r0 :: w2 := by
          simp
        rw [hform]
        by_cases hr0 : r0.isDigit = true
        · have he : matchOptFrac ('.' :: g1 :: r0 :: w2) = (['.', g1, r0], w2) := by
            show (if g1.isDigit = true then
                (if r0.isDigit = true then (['.', g1, r0], w2)
                 else (['.', g1], r0 :: w2))
              else ([], '.' :: g1 :: r0 :: w2)) = _
            rw [if_pos hg1, if_pos hr0]
          rw [he]
          simp
        · have he : matchOptFrac ('.' :: g1 :: r0 :: w2) = (['.', g1], r0 :: w2) := by
            show (if g1.isDigit = true then
                (if r0.isDigit = true then (['.', g1, r0], w2)
                 else (['.', g1], r0 :: w2))
              else ([], '.' :: g1 :: r0 :: w2)) = _
            rw [if_pos hg1, if_neg hr0]
          rw [he]
    · have hform : ('.' :: [g1, g2]) ++ w = '.' :: g1 :: g2 :: w := by simp
      rw [hform]
      have he : matchOptFrac ('.' :: g1 :: g2 :: w) = (['.', g1, g2], w) := by
        show (if g1.isDigit = true then
            (if g2.isDigit = true then (['.', g1, g2], w)
             else (['.', g1], g2 :: w))
          else ([], '.' :: g1 :: g2 :: w)) = _
        rw [if_pos hg1, if_pos hg2]
      rw [he]

theorem tail_ge {oss2 off2 : List Char} (w : List Char)
    (hoss : oss2 = [] ∨ ∃ s2, oss2 = ':' :: s2 ∧ twoDigits s2 = true)
    (hoff : off2 = [] ∨ ∃ fr, off2 = '.' :: fr ∧ oneOrTwoDigits fr = true) :
    oss2.length + off2.length ≤
      (matchOptColonDigits (oss2 ++ (off2 ++ w))).1.length +
        (matchOptFrac (matchOptColonDigits (oss2 ++ (off2 ++ w))).2).1.length := by
  rcases hoss with rfl | ⟨s2, rfl, hs2⟩
  · simp only [List.nil_append, List.length_nil, Nat.zero_add]
    rcases hoff with rfl | ⟨fr, rfl, hfr⟩
    · simp
    · have hhead : matchOptColonDigits (('.' :: fr) ++ w) =
          ([], ('.' :: fr) ++ w) := by
        rcases matchOptColonDigits_shape (('.' :: fr) ++ w) with h0 | ⟨s2, hs, -⟩
        · have hsplit := matchOptColonDigits_split (('.' :: fr) ++ w)
          rw [h0, List.nil_append] at hsplit
          exact Prod.ext h0 hsplit
        · exfalso
          have hsplit := matchOptColonDigits_split (('.' :: fr) ++ w)
          rw [hs] at hsplit
          simp only [List.cons_append, List.cons.injEq] at hsplit
          exact absurd hsplit.1 (by decide)
      rw [hhead]
      have := matchOptFrac_ge w (Or.inr ⟨fr, rfl, hfr⟩)
      simpa using this
  · obtain ⟨e1, e2, rfl, he1, he2⟩ := twoDigits_cases hs2
    have hform : ((':' :: [e1, e2]) ++ (off2 ++ w)) =
        ':' :: e1 :: e2 :: (off2 ++ w) := by simp
    rw [hform]
    have hoc : matchOptColonDigits (':' :: e1 :: e2 :: (off2 ++ w)) =
        ([':', e1, e2], off2 ++ w) := by
      show (if e1.isDigit && e2.isDigit then ([':', e1, e2], off2 ++ w)
        else ([], ':' :: e1 :: e2 :: (off2 ++ w))) = _
      rw [if_pos (by simp [he1, he2])]
    rw [hoc]
    have := matchOptFrac_ge w hoff
    simp only [List.length_cons, List.length_nil]
    omega

theorem matchTail_maximal {u m r : List Char} (hmt : matchTail u = some (m, r))
    {ss2 oss2 off2 w : List Char} (hu : u = ss2 ++ (oss2 ++ (off2 ++ w)))
    (hss : twoDigits ss2 = true)
    (hoss : oss2 = [] ∨ ∃ s2, oss2 = ':' :: s2 ∧ twoDigits s2 = true)
    (hoff : off2 = [] ∨ ∃ fr, off2 = '.' :: fr ∧ oneOrTwoDigits fr = true) :
    ss2.length + oss2.length + off2.length ≤ m.length := by
  obtain ⟨d1, d2, rfl, hd1, hd2⟩ := twoDigits_cases hss
  have hform : (([d1, d2] : List Char)) ++ (oss2 ++ (off2 ++ w)) =
      d1 :: d2 :: (oss2 ++ (off2 ++ w)) := by simp
  rw [hform] at hu
  rw [hu] at hmt
  have h2 : matchTail (d1 :: d2 :: (oss2 ++ (off2 ++ w))) =
      some (d1 :: d2 :: ((matchOptColonDigits (oss2 ++ (off2 ++ w))).1 ++
        (matchOptFrac (matchOptColonDigits (oss2 ++ (off2 ++ w))).2).1),
        (matchOptFrac (matchOptColonDigits (oss2 ++ (off2 ++ w))).2).2) := by
    show (if (d1.isDigit && d2.isDigit) = true then
        some (d1 :: d2 :: ((matchOptColonDigits (oss2 ++ (off2 ++ w))).1 ++
          (matchOptFrac (matchOptColonDigits (oss2 ++ (off2 ++ w))).2).1),
          (matchOptFrac (matchOptColonDigits (oss2 ++ (off2 ++ w))).2).2)
      else none) = _
    rw [if_pos (by simp [hd1, hd2])]
  rw [h2] at hmt
  have hm := (Prod.mk.injEq .. |>.mp (Option.some.inj hmt)).1
  rw [← hm]
  have := tail_ge w hoss hoff
  simp only [List.length_cons, List.length_append, List.length_nil]
  omega

theorem matchTimestampAt_maximal {l : List Char} {p : List Char × List Char}
    (hm : matchTimestampAt l = some p) {t2 r2 : List Char}
    (hl : l = t2 ++ r2) (hsh : specTimestampShape t2) :
    t2.length ≤ p.1.length := by
  obtain ⟨mm, ss, oss, off, rfl, h1, h2, hoss, hoff⟩ := hsh
  unfold matchTimestampAt at hm
  split at hm
  case h_2 => exact absurd hm (by simp)
  case h_1 a b c rest =>
    split at hm
    case isTrue hcond =>
      rcases Option.map_eq_some'.mp hm with ⟨⟨m, r⟩, hmt, heq⟩
      simp only [Bool.and_eq_true, decide_eq_true_eq] at hcond
      obtain ⟨⟨ha, hb⟩, rfl⟩ := hcond
      rcases oneOrTwoDigits_cases h1 with ⟨x, rfl, hx⟩ | ⟨x, y, rfl, hx, hy⟩
      · exfalso
        simp only [List.cons_append, List.append_assoc, List.nil_append,
          List.cons.injEq] at hl
        have hb2 : b = ':' := by tauto
        rw [hb2] at hb
        exact absurd hb (by decide)
      · simp only [List.cons_append, List.append_assoc, List.nil_append,
          List.cons.injEq] at hl
        have hrest : rest = ss ++ (oss ++ (off ++ r2)) := by tauto
        have := matchTail_maximal hmt hrest h2 hoss hoff
        rw [← heq]
        simp only [List.cons_append, List.append_assoc, List.length_append,
          List.length_cons, List.length_nil]
        omega
    case isFalse hc1 =>
      split at hm
      case isFalse => exact absurd hm (by simp)
      case isTrue hcond =>
        rcases Option.map_eq_some'.mp hm with ⟨⟨m, r⟩, hmt, heq⟩
        simp only [Bool.and_eq_true, decide_eq_true_eq] at hcond
        obtain ⟨ha, rfl⟩ := hcond
        rcases oneOrTwoDigits_cases h1 with ⟨x, rfl, hx⟩ | ⟨x, y, rfl, hx, hy⟩
        · simp only [List.cons_append, List.append_assoc, List.nil_append,
            List.cons.injEq] at hl
          have hrest : c :: rest = ss ++ (oss ++ (off ++ r2)) := by tauto
          have := matchTail_maximal hmt hrest h2 hoss hoff
          rw [← heq]
          simp only [List.cons_append, List.append_assoc, List.length_append,
            List.length_cons, List.length_nil]
          omega
        · exfalso
          simp only [List.cons_append, List.append_assoc, List.nil_append,
            List.cons.injEq] at hl
          have hy2 : (':' : Char) = y := by tauto
          rw [← hy2] at hy
          exact absurd hy (by decide)

theorem takeUntilRBracket_exact : ∀ (g suf : List Char), '\n' ∉ g → ']' ∉ g →
    takeUntilRBracket (g ++ ']' :: suf) = some g := by
  intro g
  induction g with
  | nil =>
    intro suf _ _
    simp [takeUntilRBracket]
  | cons c cs ih =>
    intro suf hn hb
    have hc : c ≠ ']' := fun he => hb (by rw [he]; simp)
    have hcn : c ≠ '\n' := fun he => hn (by rw [he]; simp)
    rw [List.cons_append]
    unfold takeUntilRBracket
    rw [if_neg hc, if_neg hcn,
      ih suf (fun hm => hn (by simp [hm])) (fun hm => hb (by simp [hm]))]
    rfl

theorem matchMarkerAt_group_iff (marker l g : List Char) :
    matchMarkerAt marker l = some g ↔ specMarkerGroup marker g l := by
  constructor
  · intro h
    unfold matchMarkerAt at h
    by_cases hsw : startsWithCI marker l = true
    swap
    · rw [if_neg hsw] at h
      exact absurd h (by simp)
    rw [if_pos hsw] at h
    obtain ⟨m, r0, hl, hm⟩ := (startsWithCI_iff marker l).mp hsw
    have hlen : marker.length = m.length := (lowerList_length_eq hm).symm
    rw [hl, hlen, List.drop_left] at h
    cases hdw : dropPySpaces r0 with
    | nil => rw [hdw] at h; exact absurd h (by simp)
    | cons x rest =>
      rw [hdw] at h
      by_cases hx : x = '['
      swap
      · exfalso
        revert h
        cases x <;> simp_all
      subst hx
      have hto : takeUntilRBracket rest = some g := h
      obtain ⟨suf, hrest, hmem, hmb⟩ := takeUntilRBracket_some hto
      set ws0 := r0.takeWhile isPySpace with hws0
      refine ⟨m, ws0, suf, ?_, hm, ?_, hmem, hmb⟩
      · have h1 : r0 = ws0 ++ ('[' :: rest) := by
          rw [hws0, ← hdw]
          unfold dropPySpaces
          exact (List.takeWhile_append_dropWhile _ _).symm
        rw [hl, h1, hrest]
        simp [List.append_assoc]
      · intro c hc
        rw [hws0] at hc
        exact mem_takeWhile_sat hc
  · rintro ⟨m, ws, suf, hl, hm, hws, hmem, hmb⟩
    have hassoc : l = m ++ (ws ++ '[' :: (g ++ ']' :: suf)) := by
      rw [hl]
      simp [List.append_assoc]
    have hlen : marker.length = m.length := (lowerList_length_eq hm).symm
    unfold matchMarkerAt
    rw [if_pos ((startsWithCI_iff marker l).mpr
      ⟨m, ws ++ '[' :: (g ++ ']' :: suf), hassoc, hm⟩)]
    have hdrop : l.drop marker.length = ws ++ '[' :: (g ++ ']' :: suf) := by
      rw [hassoc, hlen, List.drop_left]
    rw [hdrop]
    have hds0 : dropPySpaces (ws ++ '[' :: (g ++ ']' :: suf)) =
        '[' :: (g ++ ']' :: suf) := by
      unfold dropPySpaces
      rw [dropWhile_all_append _ hws]
      rw [List.dropWhile_cons_of_neg (by simp [isPySpace])]
    rw [hds0]
    exact takeUntilRBracket_exact g suf hmem hmb

theorem matchMarkerAt_none_group_iff (marker l : List Char) :
    matchMarkerAt marker l = none ↔ ∀ g, ¬ specMarkerGroup marker g l := by
  constructor
  · intro h g hg
    rw [(matchMarkerAt_group_iff marker l g).mpr hg] at h
    exact Option.noConfusion h
  · intro h
    cases hm : matchMarkerAt marker l with
    | none => rfl
    | some g => exact absurd ((matchMarkerAt_group_iff marker l g).mp hm) (h g)

theorem searchMarker_some_iff (marker : List Char) : ∀ (text : List Char)
    (g : List Char), (searchMarker marker text = some g ↔
      ∃ i, matchMarkerAt marker (text.drop i) = some g ∧
        ∀ j < i, matchMarkerAt marker (text.drop j) = none) := by
  intro text
  induction text with
  | nil =>
    intro g
    simp only [searchMarker]
    constructor
    · intro h
      exact ⟨0, by rwa [List.drop_nil], by omega⟩
    · rintro ⟨i, hi, -⟩
      rwa [List.drop_nil] at hi
  | cons c cs ih =>
    intro g
    simp only [searchMarker]
    cases hm : matchMarkerAt marker (c :: cs) with
    | some k =>
      constructor
      · intro h
        refine ⟨0, ?_, by omega⟩
        rw [List.drop_zero, hm]
        exact h
      · rintro ⟨i, hi, hj⟩
        cases i with
        | zero =>
          rw [List.drop_zero, hm] at hi
          exact hi
        | succ m =>
          have := hj 0 (by omega)
          rw [List.drop_zero, hm] at this
          exact Option.noConfusion this
    | none =>
      rw [ih g]
      constructor
      · rintro ⟨i, hi, hj⟩
        refine ⟨i + 1, by rwa [List.drop_succ_cons], ?_⟩
        intro j hji
        cases j with
        | zero => rwa [List.drop_zero]
        | succ jm =>
          rw [List.drop_succ_cons]
          exact hj jm (by omega)
      · rintro ⟨i, hi, hj⟩
        cases i with
        | zero =>
          rw [List.drop_zero, hm] at hi
          exact Option.noConfusion hi
        | succ m =>
          rw [List.drop_succ_cons] at hi
          refine ⟨m, hi, fun j hjm => ?_⟩
          have := hj (j + 1) (by omega)
          rwa [List.drop_succ_cons] at this

theorem searchMarker_leftmost_iff (marker text g : List Char) :
    searchMarker marker text = some g ↔
      ∃ i, specMarkerGroupAt marker g text i ∧
        ∀ j < i, ∀ g2, ¬ specMarkerGroupAt marker g2 text j := by
  rw [searchMarker_some_iff]
  unfold specMarkerGroupAt
  constructor
  · rintro ⟨i, hi, hj⟩
    refine ⟨i, (matchMarkerAt_group_iff _ _ _).mp hi, fun j hji g2 hg2 => ?_⟩
    have := (matchMarkerAt_group_iff marker (text.drop j) g2).mpr hg2
    rw [hj j hji] at this
    exact Option.noConfusion this
  · rintro ⟨i, hi, hj⟩
    refine ⟨i, (matchMarkerAt_group_iff _ _ _).mpr hi, fun j hji => ?_⟩
    rw [matchMarkerAt_none_group_iff]
    exact fun g2 => hj j hji g2

theorem searchMarker_allnone_iff (marker text : List Char) :
    searchMarker marker text = none ↔
      ∀ i g2, ¬ specMarkerGroupAt marker g2 text i := by
  rw [searchMarker_none_iff]
  unfold specMarkerGroupAt
  constructor
  · intro h i
    rw [← matchMarkerAt_none_group_iff]
    exact h i
  · intro h i
    rw [matchMarkerAt_none_group_iff]
    exact fun g2 => h i g2

theorem evidenceGroup_some_iff (text g : List Char) :
    evidenceGroup text = some g ↔ specEvidenceGroup g text := by
  unfold evidenceGroup specEvidenceGroup
  cases hzh : searchMarker zhTimestampMarker text with
  | some m =>
    constructor
    · intro h
      obtain rfl : m = g := Option.some.inj h
      exact Or.inl ((searchMarker_leftmost_iff _ text _).mp hzh)
    · rintro (h | ⟨hno, -⟩)
      · have := (searchMarker_leftmost_iff _ text g).mpr h
        rw [hzh] at this
        exact this
      · exfalso
        have := (searchMarker_allnone_iff _ text).mpr hno
        rw [hzh] at this
        exact Option.noConfusion this
  | none =>
    have hno : ∀ i g2, ¬ specMarkerGroupAt zhTimestampMarker g2 text i :=
      (searchMarker_allnone_iff _ text).mp hzh
    constructor
    · intro h
      exact Or.inr ⟨hno, (searchMarker_leftmost_iff _ text g).mp h⟩
    · rintro (⟨i, hi, -⟩ | ⟨-, h⟩)
      · exact absurd hi (hno i g)
      · exact (searchMarker_leftmost_iff _ text g).mpr h

theorem no_shape_in_nil :
    ¬ ∃ pre t suf, ([] : List Char) = pre ++ t ++ suf ∧
      specTimestampShape t := by
  rintro ⟨pre, t, suf, hg2, hsh⟩
  obtain ⟨mm, ss, oss, off, ht, -, -, -, -⟩ := hsh
  have hlen := congrArg List.length hg2
  rw [ht] at hlen
  simp [List.length_append] at hlen
  omega

theorem specTimestampShape_ne_nil {t : List Char}
    (h : specTimestampShape t) : t ≠ [] := by
  obtain ⟨mm, ss, oss, off, rfl, h1, -, -, -⟩ := h
  rcases oneOrTwoDigits_cases h1 with ⟨x, rfl, -⟩ | ⟨x, y, rfl, -, -⟩ <;> simp

theorem findAll_of_match {l : List Char} {p : List Char × List Char}
    (h : matchTimestampAt l = some p) :
    findAllTimestamps l = p.1 :: findAllTimestamps p.2 := by
  cases l with
  | nil => exact absurd h (by simp [matchTimestampAt])
  | cons c cs =>
    rw [findAllTimestamps_cons, h]

theorem findAll_skip : ∀ (pre w : List Char),
    (∀ i < pre.length, matchTimestampAt ((pre ++ w).drop i) = none) →
    findAllTimestamps (pre ++ w) = findAllTimestamps w := by
  intro pre
  induction pre with
  | nil =>
    intro w _
    rfl
  | cons c cs ih =>
    intro w h
    rw [List.cons_append, findAllTimestamps_cons]
    have h0 := h 0 (by simp)
    rw [List.drop_zero, List.cons_append] at h0
    rw [h0]
    exact ih w (fun i hi => by
      have := h (i + 1) (by simp only [List.length_cons]; omega)
      rwa [List.cons_append, List.drop_succ_cons] at this)

theorem FindAllSpec_cons_left {c : Char} {cs : List Char}
    {ts : List (List Char)} (hm : matchTimestampAt (c :: cs) = none)
    (h : FindAllSpec cs ts) : FindAllSpec (c :: cs) ts := by
  cases h with
  | empty _ hno =>
    refine FindAllSpec.empty _ ?_
    rintro ⟨pre, t, suf, hg2, hsh⟩
    cases pre with
    | nil =>
      obtain ⟨p, hp⟩ := matchTimestampAt_of_shape hsh suf
      rw [show t ++ suf = c :: cs from by simpa using hg2.symm] at hp
      rw [hm] at hp
      exact Option.noConfusion hp
    | cons c2 pre2 =>
      apply hno
      refine ⟨pre2, t, suf, ?_, hsh⟩
      have h2 := hg2
      simp only [List.cons_append, List.cons.injEq] at h2
      exact h2.2
  | found pre t rest ts2 hsh hmax hleft hrec =>
    have hgoal : c :: (pre ++ t ++ rest) = (c :: pre) ++ t ++ rest := by
      simp [List.cons_append]
    rw [hgoal]
    refine FindAllSpec.found (c :: pre) t rest ts2 hsh hmax ?_ hrec
    intro pre2 t2 suf2 hdec hsh2
    cases pre2 with
    | nil =>
      exfalso
      obtain ⟨p, hp⟩ := matchTimestampAt_of_shape hsh2 suf2
      have he : (c :: pre) ++ t ++ rest = t2 ++ suf2 := by
        rw [hdec]
        rfl
      rw [← he] at hp
      have hm2 : matchTimestampAt ((c :: pre) ++ t ++ rest) = none := hm
      rw [hm2] at hp
      exact Option.noConfusion hp
    | cons c2 pre3 =>
      have hd2 : pre ++ t ++ rest = pre3 ++ t2 ++ suf2 := by
        have h2 := hdec
        simp only [List.cons_append, List.cons.injEq] at h2
        exact h2.2
      have := hleft pre3 t2 suf2 hd2 hsh2
      simp only [List.length_cons]
      omega

theorem findAll_spec : ∀ n (g : List Char), g.length ≤ n →
    FindAllSpec g (findAllTimestamps g) := by
  intro n
  induction n with
  | zero =>
    intro g hg
    have : g = [] := List.length_eq_zero.mp (Nat.le_zero.mp hg)
    subst this
    exact FindAllSpec.empty [] no_shape_in_nil
  | succ n ih =>
    intro g hg
    cases g with
    | nil => exact FindAllSpec.empty [] no_shape_in_nil
    | cons c cs =>
      rw [findAllTimestamps_cons]
      cases hm : matchTimestampAt (c :: cs) with
      | some p =>
        dsimp only
        obtain ⟨hsplit, hshape⟩ := matchTimestampAt_split_shape hm
        have hrec : FindAllSpec p.2 (findAllTimestamps p.2) := by
          apply ih
          have hlen : p.2.length < (c :: cs).length := matchTimestampAt_length hm
          simp only [List.length_cons] at hlen hg
          omega
        have hgoal : c :: cs = [] ++ p.1 ++ p.2 := by
          rw [List.nil_append]
          exact hsplit
        rw [hgoal]
        exact FindAllSpec.found [] p.1 p.2 _ hshape
          (fun t2 r2 h12 hsh2 =>
            matchTimestampAt_maximal hm (by rw [hsplit]; exact h12) hsh2)
          (fun _ _ _ _ _ => Nat.zero_le _) hrec
      | none =>
        dsimp only
        exact FindAllSpec_cons_left hm (ih cs (by
          simp only [List.length_cons] at hg
          omega))

theorem FindAllSpec_unique {g : List Char} {ts : List (List Char)}
    (h : FindAllSpec g ts) : ts = findAllTimestamps g := by
  induction h with
  | empty g hno =>
    exact ((findAll_nil_iff g.length g (le_refl _)).mpr hno).symm
  | found pre t rest ts hsh hmax hleft hrec ih =>
    have hpre_none : ∀ i, i < pre.length →
        matchTimestampAt ((pre ++ (t ++ rest)).drop i) = none := by
      intro i hi
      cases hm2 : matchTimestampAt ((pre ++ (t ++ rest)).drop i) with
      | none => rfl
      | some p =>
        exfalso
        obtain ⟨hsplit, hshape⟩ := matchTimestampAt_split_shape hm2
        have hdec : pre ++ t ++ rest =
            (pre ++ (t ++ rest)).take i ++ p.1 ++ p.2 := by
          rw [List.append_assoc]
          conv_lhs => rw [← List.take_append_drop i (pre ++ (t ++ rest))]
          rw [hsplit, ← List.append_assoc]
        have hlb := hleft _ _ _ hdec hshape
        have hti : ((pre ++ (t ++ rest)).take i).length = i := by
          rw [List.length_take]
          simp only [List.length_append]
          omega
        omega
    have hskip := findAll_skip pre (t ++ rest) hpre_none
    rw [List.append_assoc, hskip]
    obtain ⟨p, hp⟩ := matchTimestampAt_of_shape hsh rest
    rw [findAll_of_match hp]
    obtain ⟨hsplit, hshape⟩ := matchTimestampAt_split_shape hp
    have hle1 : p.1.length ≤ t.length := hmax p.1 p.2 hsplit hshape
    have hle2 : t.length ≤ p.1.length :=
      matchTimestampAt_maximal hp rfl hsh
    obtain ⟨ht1, ht2⟩ := List.append_inj hsplit (Nat.le_antisymm hle2 hle1)
    rw [← ht1, ← ht2, ih]

/-- C1: `_extract_analysis_data_from_response` computes `timestamps` from
the first bracketed list following a `证据时间戳:` or `EVIDENCE_TIMESTAMPS:`
marker (case-insensitive, the leftmost Chinese match winning, the English
pattern consulted only when the Chinese pattern matches nowhere): when
neither marker followed by a bracketed list occurs the list is empty; the
extracted group is characterized spec-side by `specEvidenceGroup`; and on
that group the result is exactly the list described by `FindAllSpec` — the
pattern-shaped substrings (1-2 digits, `:`, 2 digits, optional `:` + 2
digits, optional `.` + 1-2 digits) taken in order of occurrence with
findall semantics, each match leftmost after the previous one and maximal
at its position — and it is the unique such list, so no match is omitted. -/
theorem claim_C1_extract_timestamps (text : List Char) :
    (evidenceGroup text = none ↔
      ¬ markerBracketOccurs zhTimestampMarker text ∧
      ¬ markerBracketOccurs enTimestampMarker text) ∧
    (evidenceGroup text = none → extractTimestamps text = []) ∧
    (∀ g, evidenceGroup text = some g ↔ specEvidenceGroup g text) ∧
    (∀ g, evidenceGroup text = some g →
      FindAllSpec g (extractTimestamps text) ∧
      ∀ ts, FindAllSpec g ts → ts = extractTimestamps text) := by
  refine ⟨?_, ?_, ?_, ?_⟩
  · unfold evidenceGroup
    cases hzh : searchMarker zhTimestampMarker text with
    | some g =>
      apply iff_of_false (by simp)
      rintro ⟨hz, -⟩
      rw [(searchMarker_none_iff_not_occurs _ text).mpr hz] at hzh
      exact Option.noConfusion hzh
    | none =>
      have hz : ¬ markerBracketOccurs zhTimestampMarker text :=
        (searchMarker_none_iff_not_occurs _ text).mp hzh
      rw [searchMarker_none_iff_not_occurs]
      exact ⟨fun he => ⟨hz, he⟩, fun h => h.2⟩
  · intro h
    unfold extractTimestamps
    rw [h]
  · intro g
    exact evidenceGroup_some_iff text g
  · intro g hg
    unfold extractTimestamps
    rw [hg]
    exact ⟨findAll_spec g.length g (le_refl _),
      fun ts hts => FindAllSpec_unique hts⟩

/-- Witness for C1: in the text `证据时间戳: [1:23]` the extracted
timestamp list satisfies the findall specification on the bracketed group
`1:23` (and, being unique with that property, misses no match). -/
theorem claim_C1_witness :
    FindAllSpec "1:23".toList
      (extractTimestamps "证据时间戳: [1:23]".toList) :=
  ((claim_C1_extract_timestamps "证据时间戳: [1:23]".toList).2.2.2
    "1:23".toList (by decide)).1

end LiveFace
